import Mathlib

/-!
Verification development for the Ecommerce-Analytics dashboard (src/app.py).

The file embeds, as executable Lean definitions, the computational core of the
application: the `clean_data` cleaning pipeline, the RFM segmentation engine
(per-customer Recency/Frequency/Monetary metrics, `pd.qcut` quartile scoring
with the `try/except` fallback, and the `segment_customer` rules), and the
weekly revenue resampling `resample('W')['TotalSales'].sum()`.

Modelling conventions:
- A dataframe cell is `Cell`: missing (`na`, modelling `NaN`/`NaT`), a typed
  datetime (`date d`, `d` counting days with day 0 = 1970-01-01, a Thursday),
  a typed number (`num n`, amounts modelled as exact integers, e.g. cents;
  every claim here is invariant under this scaling), or raw text (`str s`).
- A column has object dtype exactly when it contains a textual cell; this is
  what the `df[col].dtype == 'object'` test observes on such data.
- `pandas.to_datetime(·, dayfirst=True, errors='coerce')` and
  `pandas.to_numeric(·, errors='coerce')` are external collaborators; they are
  modelled executably on the fragment of their input grammar exercised by the
  program (ISO `YYYY-MM-DD` and day-first `D/M/YYYY` dates; optionally signed
  integer numerals), everything else coercing to missing.
- `pd.qcut(v, 4, labels)` computes the 5 quantile edges of the values with
  linear interpolation (positions `q*(n-1)` for `q = 0, 1/4, 1/2, 3/4, 1`) and
  raises `ValueError` when two edges coincide; since the interpolation weights
  are quarters, edges are represented exactly as integers scaled by 4.
- Raising pandas calls are modelled with `Except`: `Except.error` is an
  uncaught exception escaping the surrounding code.
-/

deriving instance DecidableEq for Except

/-- A single dataframe cell. -/
inductive Cell
  | na : Cell
  | date : Int → Cell
  | num : Int → Cell
  | str : String → Cell
deriving DecidableEq

/-- One transaction row of the raw table, with the five schema columns. -/
structure Row where
  orderDate : Cell
  customerId : Cell
  productId : Cell
  quantity : Cell
  totalSales : Cell
deriving DecidableEq

/-- A raw table: which of the cleanable columns are present, plus the rows.
When a flag is false the corresponding `Row` field is conventionally `Cell.na`. -/
structure Table where
  hasOrderDate : Bool
  hasQuantity : Bool
  hasTotalSales : Bool
  rows : List Row
deriving DecidableEq

/-- Tests whether a cell is missing (`NaN`/`NaT`). -/
def Cell.isNA : Cell → Bool
  | .na => true
  | _ => false

/-- Tests whether a cell is raw text; a column containing one has object dtype. -/
def Cell.isStr : Cell → Bool
  | .str _ => true
  | _ => false

/-- Keep-first deduplication with an accumulator of already seen elements,
modelling `DataFrame.drop_duplicates()` (which keeps the first occurrence). -/
def dedupAux {α : Type} [DecidableEq α] (seen : List α) : List α → List α
  | [] => []
  | a :: l => if a ∈ seen then dedupAux seen l else a :: dedupAux (a :: seen) l

/-- Modelling `DataFrame.drop_duplicates()`: remove exact duplicate rows,
keeping first occurrences. -/
def dedupKeepFirst {α : Type} [DecidableEq α] (l : List α) : List α :=
  dedupAux [] l

/-- Numeric value of a list of decimal digit characters, if all are digits. -/
def natOfDigits (cs : List Char) : Option Nat :=
  if cs ≠ [] ∧ cs.all Char.isDigit then
    some (cs.foldl (fun a c => 10 * a + (c.toNat - 48)) 0)
  else none

/-- Split a character list on a separator character. -/
def splitChar (sep : Char) : List Char → List (List Char)
  | [] => [[]]
  | c :: cs =>
    if c = sep then [] :: splitChar sep cs
    else
      match splitChar sep cs with
      | [] => [[c]]
      | g :: gs => (c :: g) :: gs

/-- Number of days in a month of the proleptic Gregorian calendar. -/
def daysInMonth (y : Int) (m : Nat) : Nat :=
  if m = 2 then
    if y % 4 = 0 ∧ (y % 100 ≠ 0 ∨ y % 400 = 0) then 29 else 28
  else if m = 4 ∨ m = 6 ∨ m = 9 ∨ m = 11 then 30
  else 31

/-- Days since 1970-01-01 of a civil date (Howard Hinnant's days-from-civil). -/
def daysFromCivil (y : Int) (m d : Nat) : Int :=
  let yy : Int := if m ≤ 2 then y - 1 else y
  let era : Int := yy / 400
  let yoe : Nat := (yy - era * 400).toNat
  let mp : Nat := (m + 9) % 12
  let doy : Nat := (153 * mp + 2) / 5 + d - 1
  let doe : Nat := yoe * 365 + yoe / 4 - yoe / 100 + doy
  era * 146097 + (doe : Int) - 719468

/-- Day number of a year/month/day triple, if it is a valid civil date. -/
def civil? (y m d : Nat) : Option Int :=
  if 1 ≤ m ∧ m ≤ 12 ∧ 1 ≤ d ∧ d ≤ daysInMonth (y : Int) m then
    some (daysFromCivil (y : Int) m d)
  else none

/-- Modelling the string grammar of `pd.to_datetime(·, dayfirst=True)`:
ISO `YYYY-MM-DD` (year first even with `dayfirst`), else day-first `D/M/YYYY`. -/
def parseDateStr (s : String) : Option Int :=
  match splitChar (Char.ofNat 45) s.data with
  | [ys, ms, ds] =>
    match natOfDigits ys, natOfDigits ms, natOfDigits ds with
    | some y, some m, some d => civil? y m d
    | _, _, _ => none
  | _ =>
    match splitChar (Char.ofNat 47) s.data with
    | [ds, ms, ys] =>
      match natOfDigits ys, natOfDigits ms, natOfDigits ds with
      | some y, some m, some d => civil? y m d
      | _, _, _ => none
    | _ => none

/-- Modelling the integer-numeral fragment of `pd.to_numeric`: an optional
minus sign followed by decimal digits. -/
def parseNumChars : List Char → Option Int
  | c :: cs =>
    if c = Char.ofNat 45 then (natOfDigits cs).map (fun n => -(n : Int))
    else (natOfDigits (c :: cs)).map (fun n => (n : Int))
  | [] => none

/-- Modelling `str.replace(r'[$,]', '', regex=True)`: strip every dollar sign
and comma from the text. -/
def stripCurrency (cs : List Char) : List Char :=
  cs.filter (fun c => c ≠ Char.ofNat 36 ∧ c ≠ Char.ofNat 44)

/-- Modelling `pd.to_datetime(·, dayfirst=True, errors='coerce')` on one cell:
missing stays missing, datetimes pass through, numbers are read as epoch
nanoseconds, text goes through the date grammar and coerces to `NaT` on
failure. -/
def to_datetime_cell (c : Cell) : Cell :=
  match c with
  | .na => .na
  | .date d => .date d
  | .num n => .date (n / 86400000000000)
  | .str s =>
    match parseDateStr s with
    | some d => .date d
    | none => .na

/-- Modelling one cell of the numeric-coercion step: when the column has
object dtype the code first applies `astype(str)` and strips currency symbols
(so numbers survive a str round-trip, missing becomes the unparseable-as-int
text `nan`, datetimes render as unparseable text), then `pd.to_numeric`
with `errors='coerce'` turns unparseable values into missing. -/
def to_numeric_cell (objDtype : Bool) (c : Cell) : Cell :=
  match c with
  | .na => .na
  | .num n => .num n
  | .date _ => .na
  | .str s =>
    match parseNumChars (if objDtype then stripCurrency s.data else s.data) with
    | some n => .num n
    | none => .na

/-- Step 1 of `clean_data`: `df = df.drop_duplicates()`. -/
def dropDup (t : Table) : List Row :=
  dedupKeepFirst t.rows

/-- Step 2 of `clean_data`: `df['OrderDate'] = pd.to_datetime(df['OrderDate'],
dayfirst=True, errors='coerce')`, guarded by `if 'OrderDate' in df.columns`. -/
def dateParsed (t : Table) : List Row :=
  if t.hasOrderDate then
    (dropDup t).map (fun r => { r with orderDate := to_datetime_cell r.orderDate })
  else dropDup t

/-- Whether the TotalSales column has object dtype at step 3
(`df['TotalSales'].dtype == 'object'`). -/
def salesObj (t : Table) : Bool :=
  (dateParsed t).any (fun r => r.totalSales.isStr)

/-- Step 3a of `clean_data`: currency-strip and numeric coercion of
`TotalSales` (first element of `numeric_cols`), guarded by column presence. -/
def salesCoerced (t : Table) : List Row :=
  if t.hasTotalSales then
    (dateParsed t).map (fun r => { r with totalSales := to_numeric_cell (salesObj t) r.totalSales })
  else dateParsed t

/-- Whether the Quantity column has object dtype at step 3b. -/
def quantObj (t : Table) : Bool :=
  (salesCoerced t).any (fun r => r.quantity.isStr)

/-- Step 3b of `clean_data`: currency-strip and numeric coercion of
`Quantity`, guarded by column presence. -/
def quantCoerced (t : Table) : List Row :=
  if t.hasQuantity then
    (salesCoerced t).map (fun r => { r with quantity := to_numeric_cell (quantObj t) r.quantity })
  else salesCoerced t

/-- The row-keeping predicate of step 4,
`df.dropna(subset=['OrderDate', 'TotalSales'])`. -/
def keepRow (r : Row) : Bool :=
  !r.orderDate.isNA && !r.totalSales.isNA

/-- Modelling `clean_data(df)` from src/app.py: drop exact duplicates, parse
`OrderDate`, coerce the numeric columns, then drop rows with missing critical
data. `dropna(subset=[...])` raises `KeyError` when a subset column is absent
from the frame, which is the only way out of the function by exception. -/
def clean_data (t : Table) : Except String Table :=
  if t.hasOrderDate ∧ t.hasTotalSales then
    .ok { t with rows := (quantCoerced t).filter keepRow }
  else .error (r"KeyError: OrderDate or TotalSales not in axis")

/-- A cleaned transaction as consumed by the analytics tabs: a typed order
date (days), the customer identifier, and the (integer-modelled) sale amount. -/
structure Txn where
  orderDate : Int
  customerId : String
  totalSales : Int
deriving DecidableEq

/-- One row of the `rfm` frame after scoring and segment assignment. -/
structure RFMRec where
  customer : String
  recency : Int
  frequency : Nat
  monetary : Int
  rScore : Nat
  fScore : Nat
  mScore : Nat
  segment : String
deriving DecidableEq

/-- Maximum of a list of integers (0 for the empty list, which the program
never queries). -/
def maxD : List Int → Int
  | [] => 0
  | a :: l => l.foldl max a

/-- Minimum of a list of integers (0 for the empty list). -/
def minD : List Int → Int
  | [] => 0
  | a :: l => l.foldl min a

/-- Lexicographic strict comparison of character lists by code point,
the order Python applies to `str` keys. -/
def charListLt : List Char → List Char → Bool
  | [], [] => false
  | [], _ :: _ => true
  | _ :: _, [] => false
  | a :: as, b :: bs =>
    if a.val < b.val then true
    else if b.val < a.val then false
    else charListLt as bs

/-- Lexicographic `≤` on strings by code point (kernel-computable). -/
def strLeB (a b : String) : Bool :=
  !(charListLt b.data a.data)

/-- The sorted distinct group keys of `df.groupby('CustomerID')`
(pandas groups with `sort=True`). -/
def sortedCustomers (rows : List Txn) : List String :=
  List.insertionSort (fun a b => strLeB a b = true) (dedupKeepFirst (rows.map (·.customerId)))

/-- The rows of one customer group. -/
def txnsOf (rows : List Txn) (c : String) : List Txn :=
  rows.filter (fun r => r.customerId = c)

/-- The snapshot instant: `filtered_df['OrderDate'].max() + timedelta(days=1)`. -/
def snapshotDate (rows : List Txn) : Int :=
  maxD (rows.map (·.orderDate)) + 1

/-- Per-customer recency: `(snapshot_date - x.max()).days`. -/
def recencyOf (rows : List Txn) (c : String) : Int :=
  snapshotDate rows - maxD ((txnsOf rows c).map (·.orderDate))

/-- Per-customer frequency: the group row count (`'CustomerID': 'count'`). -/
def freqOf (rows : List Txn) (c : String) : Nat :=
  (txnsOf rows c).length

/-- Per-customer monetary value: the group sum of `TotalSales`. -/
def monOf (rows : List Txn) (c : String) : Int :=
  ((txnsOf rows c).map (·.totalSales)).sum

/-- The `j`-th quantile edge (for `q = j/4`, `j = 0..4`) of an ascending value
list, scaled by 4: `numpy` linear interpolation at position `q*(n-1)` lands at
integer index `pos / 4` with fractional part `(pos % 4)/4`. -/
def edge4 (s : List Int) (j : Nat) : Int :=
  let pos := j * (s.length - 1)
  4 * s.getD (pos / 4) 0 + (pos % 4 : Nat) * (s.getD (pos / 4 + 1) 0 - s.getD (pos / 4) 0)

/-- Quartile bin (0..3) of a value `v` given the three internal edges, all
scaled by 4; bins are right-closed and the first includes the lowest edge
(`pd.cut(..., include_lowest=True)` semantics used by `qcut`). -/
def binOf (e1 e2 e3 x : Int) : Nat :=
  if x ≤ e1 then 0 else if x ≤ e2 then 1 else if x ≤ e3 then 2 else 3

/-- Ascending sort of the values, as `np.quantile` applies before
interpolating. -/
def sortInt (l : List Int) : List Int :=
  List.insertionSort (fun a b : Int => a ≤ b) l

/-- One sorted-insertion step (the head step of `sortInt`). -/
def insInt (v : Int) (B : List Int) : List Int :=
  List.orderedInsert (fun a b : Int => a ≤ b) v B

/-- Modelling `pd.qcut(vals, 4)`: compute the five quartile edges and assign
each value its bin; `none` models the `ValueError` raised when two edges
coincide (and on empty input). -/
def qcut4 (vals : List Int) : Option (List Nat) :=
  if vals = [] then none
  else
    if edge4 (sortInt vals) 0 < edge4 (sortInt vals) 1 ∧
        edge4 (sortInt vals) 1 < edge4 (sortInt vals) 2 ∧
        edge4 (sortInt vals) 2 < edge4 (sortInt vals) 3 ∧
        edge4 (sortInt vals) 3 < edge4 (sortInt vals) 4 then
      some (vals.map (fun v =>
        binOf (edge4 (sortInt vals) 1) (edge4 (sortInt vals) 2)
          (edge4 (sortInt vals) 3) (4 * v)))
    else none

/-- Modelling `Series.rank(method='first')` on the frequency column: rank by
value, ties broken by position. -/
def rankFirst (l : List Nat) : List Int :=
  (List.range l.length).map (fun i =>
    ((l.filter (fun y => y < l.getD i 0)).length : Int) +
      (((l.take (i + 1)).filter (fun y => y = l.getD i 0)).length : Int))

/-- Modelling `segment_customer(row)`: first matching rule wins, on the
concatenated score string. -/
def segment_customer (rS fS mS : Nat) : String :=
  let rfmScore := toString rS ++ toString fS ++ toString mS
  if rfmScore = (r"444") ∨ rfmScore = (r"434") ∨ rfmScore = (r"443") ∨ rfmScore = (r"344") then
    (r"Champions")
  else if rS = 4 then (r"New Users")
  else if rS = 1 then (r"At Risk")
  else (r"Regular")

/-- The recency values of the groups, in group order. -/
def recencies (rows : List Txn) : List Int :=
  (sortedCustomers rows).map (recencyOf rows)

/-- The frequency values of the groups, in group order. -/
def frequencies (rows : List Txn) : List Nat :=
  (sortedCustomers rows).map (freqOf rows)

/-- The monetary values of the groups, in group order. -/
def monetaries (rows : List Txn) : List Int :=
  (sortedCustomers rows).map (monOf rows)

/-- The F/M score columns: `R_Score` is computed outside the `try`, then the
`try` block computes `F_Score` from the tie-broken frequency ranks and
`M_Score` from the monetary values; if either `qcut` raises, the `except`
arm assigns the constant `'1'` to both. -/
def fmScores (rows : List Txn) : List Nat × List Nat :=
  match qcut4 (rankFirst (frequencies rows)), qcut4 (monetaries rows) with
  | some fbins, some mbins => (fbins.map (· + 1), mbins.map (· + 1))
  | _, _ => ((sortedCustomers rows).map (fun _ => 1), (sortedCustomers rows).map (fun _ => 1))

/-- Modelling the RFM tab body for a non-empty filtered table: group by
customer, score, and label. `R_Score`Ê¼s `pd.qcut` call sits outside the
`try`, so its `ValueError` escapes as `Except.error`; labels map bins to
scores (`['4','3','2','1']` for recency, `['1','2','3','4']` for the rest). -/
def segmentTable (rows : List Txn) : Except String (List RFMRec) :=
  match qcut4 (recencies rows) with
  | none => .error (r"ValueError: Bin edges must be unique")
  | some rbins =>
    .ok ((List.range (sortedCustomers rows).length).map (fun i =>
      { customer := (sortedCustomers rows).getD i (r""),
        recency := (recencies rows).getD i 0,
        frequency := (frequencies rows).getD i 0,
        monetary := (monetaries rows).getD i 0,
        rScore := 4 - rbins.getD i 0,
        fScore := (fmScores rows).1.getD i 1,
        mScore := (fmScores rows).2.getD i 1,
        segment := segment_customer (4 - rbins.getD i 0) ((fmScores rows).1.getD i 1)
          ((fmScores rows).2.getD i 1) }))

/-- The Sunday ending the calendar week of day `d` (day 0 = Thursday
1970-01-01; `resample('W')` buckets are Monday-to-Sunday weeks labelled by
their right edge). -/
def weekEnd (d : Int) : Int :=
  d + (3 - d) % 7

/-- All weekly labels from `a` to `b` (both Sundays, `a ≤ b`), step 7. -/
def weekBuckets (a b : Int) : List Int :=
  (List.range (((b - a) / 7).toNat + 1)).map (fun k : Nat => a + 7 * (k : Int))

/-- Modelling `filtered_df.set_index('OrderDate').resample('W')['TotalSales']
.sum()`: one entry for every calendar week from the first to the last
transaction, each with the summed sales of that week (0 for empty weeks). -/
def sales_over_time (rows : List Txn) : List (Int × Int) :=
  if rows = [] then []
  else
    (weekBuckets (weekEnd (minD (rows.map (·.orderDate)))) (weekEnd (maxD (rows.map (·.orderDate))))).map
      (fun w => (w, ((rows.filter (fun r => weekEnd r.orderDate = w)).map (·.totalSales)).sum))

/-- The whole-row effect of the coercion steps 2 and 3 of `clean_data` on one
surviving row, with the column dtypes observed on the deduplicated table. -/
def rowCoerce (t : Table) (r : Row) : Row :=
  let r1 := if t.hasOrderDate then { r with orderDate := to_datetime_cell r.orderDate } else r
  let r2 := if t.hasTotalSales then
    { r1 with totalSales := to_numeric_cell (salesObj t) r1.totalSales } else r1
  if t.hasQuantity then { r2 with quantity := to_numeric_cell (quantObj t) r2.quantity } else r2

/-- Shape of a row of a cleaned table: typed non-null date, typed non-null
sales amount, and (when the column exists) a numeric-or-missing quantity. -/
def RowClean (hq : Bool) (r : Row) : Prop :=
  (∃ d, r.orderDate = Cell.date d) ∧ (∃ n, r.totalSales = Cell.num n) ∧
    (hq = true → r.quantity = Cell.na ∨ ∃ n, r.quantity = Cell.num n)

/-- Example: a table lacking the OrderDate column. -/
def tableNoOrderDate : Table :=
  Table.mk false true true [Row.mk .na (.str (r"A")) (.str (r"P")) (.num 1) (.num 5)]

/-- Example: two raw-distinct rows that coerce to the same cleaned row. -/
def tableDollarDup : Table :=
  Table.mk true true true
    [Row.mk (.date 0) (.str (r"A")) (.str (r"P")) (.num 1) (.str (r"$100")),
     Row.mk (.date 0) (.str (r"A")) (.str (r"P")) (.num 1) (.str (r"100"))]

/-- The cleaned output of `tableDollarDup`, with a duplicated row. -/
def tableDollarDupOut : Table :=
  Table.mk true true true
    [Row.mk (.date 0) (.str (r"A")) (.str (r"P")) (.num 1) (.num 100),
     Row.mk (.date 0) (.str (r"A")) (.str (r"P")) (.num 1) (.num 100)]

/-- Example: a second coercion-collision table (for idempotence). -/
def tableDollarDup2 : Table :=
  Table.mk true true true
    [Row.mk (.date 3) (.str (r"B")) (.str (r"Q")) (.num 2) (.str (r"$200")),
     Row.mk (.date 3) (.str (r"B")) (.str (r"Q")) (.num 2) (.str (r"200"))]

/-- Example: an already-typed two-row table (a fixed point of cleaning). -/
def tableTyped : Table :=
  Table.mk true true true
    [Row.mk (.date 0) (.str (r"A")) (.str (r"P")) (.num 1) (.num 5),
     Row.mk (.date 1) (.str (r"B")) (.str (r"P")) (.num 2) (.num 7)]

/-- Example: a table whose second row has an uncoercible quantity. -/
def tableBadQuantity : Table :=
  Table.mk true true true
    [Row.mk (.date 0) (.str (r"A")) (.str (r"P")) (.num 1) (.num 5),
     Row.mk (.date 1) (.str (r"B")) (.str (r"P")) (.str (r"two")) (.num 7)]

/-- The cleaned output of `tableBadQuantity`: both rows kept, the bad
quantity now missing. -/
def tableBadQuantityOut : Table :=
  Table.mk true true true
    [Row.mk (.date 0) (.str (r"A")) (.str (r"P")) (.num 1) (.num 5),
     Row.mk (.date 1) (.str (r"B")) (.str (r"P")) .na (.num 7)]

/-- Example: a one-row, one-customer filtered table. -/
def oneCustomerRows : List Txn :=
  [Txn.mk 0 (r"A") 10]

/-- Example: a small two-customer filtered table. -/
def twoCustomerRows : List Txn :=
  [Txn.mk 10 (r"A") 5, Txn.mk 8 (r"B") 3]

/-- The `M_Score` column entry of one customer, as produced by the scoring
step (`pd.qcut` with the `try/except` fallback). -/
def mScoreOf (rows : List Txn) (c : String) : Nat :=
  (fmScores rows).2.getD ((sortedCustomers rows).indexOf c) 1

/-- Example: nine single-transaction customers with monetary values
1,2,3,4,5,6,7,9,9 (customer D holds the 4) and distinct order dates, so the
recency quartiles succeed and the pipeline reaches the monetary scoring. -/
def monoRows : List Txn :=
  [Txn.mk 100 (r"A") 1, Txn.mk 99 (r"B") 2, Txn.mk 98 (r"C") 3, Txn.mk 97 (r"D") 4,
   Txn.mk 96 (r"E") 5, Txn.mk 95 (r"F") 6, Txn.mk 94 (r"G") 7, Txn.mk 93 (r"H") 9,
   Txn.mk 92 (r"I") 9]

/-- Example: `monoRows` with customer D raised from 4 to 9 (dates and every
other customer unchanged). -/
def monoRowsUp : List Txn :=
  [Txn.mk 100 (r"A") 1, Txn.mk 99 (r"B") 2, Txn.mk 98 (r"C") 3, Txn.mk 97 (r"D") 9,
   Txn.mk 96 (r"E") 5, Txn.mk 95 (r"F") 6, Txn.mk 94 (r"G") 7, Txn.mk 93 (r"H") 9,
   Txn.mk 92 (r"I") 9]

/-- Example: left context for the C8 witness (distinct order dates keep the
recency quartiles solvable, so the pipeline returns records). -/
def wit8l1 : List Txn := [Txn.mk 10 (r"A") 10]

/-- Example: right context for the C8 witness. -/
def wit8l2 : List Txn := [Txn.mk 5 (r"C") 30, Txn.mk 1 (r"D") 40]

/-- Example: a non-empty two-customer table whose customers share the same
last order date (equal recencies). -/
def equalRecencyRows : List Txn :=
  [Txn.mk 10 (r"A") 5, Txn.mk 10 (r"B") 7]

/-- Example: four customers with one transaction each, distinct recencies and
distinct amounts. -/
def fourCustomerRows : List Txn :=
  [Txn.mk 10 (r"A") 10, Txn.mk 8 (r"B") 20, Txn.mk 5 (r"C") 30, Txn.mk 1 (r"D") 40]

/-- The RFM records the pipeline produces on `fourCustomerRows`. -/
def fourCustomerRecs : List RFMRec :=
  [RFMRec.mk (r"A") 1 1 10 4 1 1 (r"New Users"),
   RFMRec.mk (r"B") 3 1 20 3 2 2 (r"Regular"),
   RFMRec.mk (r"C") 6 1 30 2 3 3 (r"Regular"),
   RFMRec.mk (r"D") 10 1 40 1 4 4 (r"At Risk")]

/-- Example: ten customers whose recencies are 1, 2, 3 and seven times 10 —
four distinct recency values, but the 0.5 and 0.75 recency quantiles tie. -/
def tenCustomerRows : List Txn :=
  [Txn.mk 100 (r"A") 1, Txn.mk 99 (r"B") 1, Txn.mk 98 (r"C") 1,
   Txn.mk 91 (r"D") 1, Txn.mk 91 (r"E") 1, Txn.mk 91 (r"F") 1,
   Txn.mk 91 (r"G") 1, Txn.mk 91 (r"H") 1, Txn.mk 91 (r"I") 1,
   Txn.mk 91 (r"J") 1]

/-- Example: four customers with distinct recencies for the C6 witness. -/
def spreadRows : List Txn :=
  [Txn.mk 20 (r"A") 10, Txn.mk 18 (r"B") 20, Txn.mk 14 (r"C") 30, Txn.mk 6 (r"D") 40]

/-- The RFM records the pipeline produces on `spreadRows`. -/
def spreadRecs : List RFMRec :=
  [RFMRec.mk (r"A") 1 1 10 4 1 1 (r"New Users"),
   RFMRec.mk (r"B") 3 1 20 3 2 2 (r"Regular"),
   RFMRec.mk (r"C") 7 1 30 2 3 3 (r"Regular"),
   RFMRec.mk (r"D") 15 1 40 1 4 4 (r"At Risk")]

/-- Example: two transactions two calendar weeks apart (day 0 is in the week
ending Sunday day 3; day 17 is the Sunday two weeks later). -/
def gapWeekRows : List Txn :=
  [Txn.mk 0 (r"A") 5, Txn.mk 17 (r"B") 7]

/-- Example: two transactions in adjacent calendar weeks. -/
def adjacentWeekRows : List Txn :=
  [Txn.mk 1 (r"A") 4, Txn.mk 9 (r"B") 6]

section DedupLemmas

variable {α : Type} [DecidableEq α]

theorem mem_dedupAux {x : α} :
    ∀ (l seen : List α), x ∈ dedupAux seen l ↔ x ∈ l ∧ x ∉ seen := by
  intro l
  induction l with
  | nil => intro seen; simp [dedupAux]
  | cons a l ih =>
    intro seen
    by_cases ha : a ∈ seen
    · rw [show dedupAux seen (a :: l) = dedupAux seen l from by simp [dedupAux, ha], ih]
      constructor
      · rintro ⟨hx, hns⟩
        exact ⟨List.mem_cons_of_mem _ hx, hns⟩
      · rintro ⟨hx, hns⟩
        rcases List.mem_cons.1 hx with rfl | hx
        · exact absurd ha hns
        · exact ⟨hx, hns⟩
    · rw [show dedupAux seen (a :: l) = a :: dedupAux (a :: seen) l from by simp [dedupAux, ha]]
      constructor
      · intro hmem
        rcases List.mem_cons.1 hmem with rfl | hmem
        · exact ⟨List.mem_cons_self _ _, ha⟩
        · obtain ⟨hx, hns⟩ := (ih (a :: seen)).1 hmem
          exact ⟨List.mem_cons_of_mem _ hx, fun hs => hns (List.mem_cons_of_mem _ hs)⟩
      · rintro ⟨hx, hns⟩
        by_cases hxa : x = a
        · subst hxa; exact List.mem_cons_self _ _
        · rcases List.mem_cons.1 hx with rfl | hx
          · exact absurd rfl hxa
          · refine List.mem_cons_of_mem _ ((ih (a :: seen)).2 ⟨hx, fun hs => ?_⟩)
            rcases List.mem_cons.1 hs with h1 | h1
            · exact hxa h1
            · exact hns h1

theorem nodup_dedupAux : ∀ (l seen : List α), (dedupAux seen l).Nodup := by
  intro l
  induction l with
  | nil => intro seen; simp [dedupAux]
  | cons a l ih =>
    intro seen
    by_cases ha : a ∈ seen
    · simpa [dedupAux, if_pos ha] using ih seen
    · simp only [dedupAux, if_neg ha, List.nodup_cons]
      refine ⟨fun hmem => ?_, ih _⟩
      exact ((mem_dedupAux l _).1 hmem).2 (List.mem_cons_self a seen)

theorem dedupAux_eq_self : ∀ (l seen : List α), l.Nodup → (∀ x ∈ l, x ∉ seen) →
    dedupAux seen l = l := by
  intro l
  induction l with
  | nil => intro seen _ _; rfl
  | cons a l ih =>
    intro seen hnd hdisj
    have ha : a ∉ seen := hdisj a (List.mem_cons_self a l)
    simp only [dedupAux, if_neg ha]
    congr 1
    refine ih _ (List.nodup_cons.1 hnd).2 (fun x hx => ?_)
    intro hs
    rcases List.mem_cons.1 hs with rfl | hs
    · exact (List.nodup_cons.1 hnd).1 hx
    · exact hdisj x (List.mem_cons_of_mem _ hx) hs

theorem mem_dedupKeepFirst {x : α} {l : List α} : x ∈ dedupKeepFirst l ↔ x ∈ l := by
  simp [dedupKeepFirst, mem_dedupAux]

theorem nodup_dedupKeepFirst (l : List α) : (dedupKeepFirst l).Nodup :=
  nodup_dedupAux l []

theorem dedupKeepFirst_eq_self {l : List α} (h : l.Nodup) : dedupKeepFirst l = l :=
  dedupAux_eq_self l [] h (by simp)

theorem dedupKeepFirst_idem (l : List α) :
    dedupKeepFirst (dedupKeepFirst l) = dedupKeepFirst l :=
  dedupKeepFirst_eq_self (nodup_dedupKeepFirst l)

end DedupLemmas

section GetDLemmas

variable {α β : Type}

theorem getD_mem : ∀ (l : List α) (i : Nat) (d : α), i < l.length → l.getD i d ∈ l := by
  intro l
  induction l with
  | nil => intro i d h; simp at h
  | cons a l ih =>
    intro i d h
    cases i with
    | zero => simp
    | succ i =>
      simp only [List.getD_cons_succ]
      exact List.mem_cons_of_mem _ (ih i d (by simpa using Nat.lt_of_succ_lt_succ h))

theorem map_getD (f : α → β) :
    ∀ (l : List α) (i : Nat) (d : α), i < l.length →
      (l.map f).getD i (f d) = f (l.getD i d) := by
  intro l
  induction l with
  | nil => intro i d h; simp at h
  | cons a l ih =>
    intro i d h
    cases i with
    | zero => simp
    | succ i => simpa using ih i d (by simpa using Nat.lt_of_succ_lt_succ h)

theorem set_getD_self : ∀ (l : List α) (i : Nat) (d : α), l.set i (l.getD i d) = l := by
  intro l
  induction l with
  | nil => intro i d; rfl
  | cons a l ih =>
    intro i d
    cases i with
    | zero => simp
    | succ i => simpa using ih i d

theorem getD_set_self : ∀ (l : List α) (i : Nat) (x d : α), i < l.length →
    (l.set i x).getD i d = x := by
  intro l
  induction l with
  | nil => intro i x d h; simp at h
  | cons a l ih =>
    intro i x d h
    cases i with
    | zero => simp
    | succ i => simpa using ih i x d (by simpa using Nat.lt_of_succ_lt_succ h)

theorem perm_set_cons_eraseIdx :
    ∀ (l : List α) (i : Nat) (x : α), i < l.length →
      List.Perm (l.set i x) (x :: l.eraseIdx i) := by
  intro l
  induction l with
  | nil => intro i x h; simp at h
  | cons a l ih =>
    intro i x h
    cases i with
    | zero => simp
    | succ i =>
      have hi : i < l.length := Nat.lt_of_succ_lt_succ h
      have h1 : (a :: l).set (i + 1) x = a :: l.set i x := rfl
      have h4 : (a :: l).eraseIdx (i + 1) = a :: l.eraseIdx i := rfl
      rw [h1, h4]
      exact (List.Perm.cons a (ih i x hi)).trans (List.Perm.swap x a _)

theorem range_map_getD (l : List α) (d : α) :
    (List.range l.length).map (fun i => l.getD i d) = l := by
  refine List.ext_get (by simp) (fun n h₁ h₂ => ?_)
  have hn : n < l.length := by simpa using h₁
  rw [List.get_map]
  simp only [List.get_range]
  exact (List.getD_eq_getElem l d hn).trans (by simp)

end GetDLemmas

section MaxMinLemmas

theorem foldl_max_init_le : ∀ (l : List Int) (a : Int), a ≤ l.foldl max a := by
  intro l
  induction l with
  | nil => intro a; simp
  | cons b l ih =>
    intro a
    calc a ≤ max a b := le_max_left a b
      _ ≤ _ := ih (max a b)

theorem foldl_max_le_of_mem : ∀ (l : List Int) (a x : Int), x ∈ l → x ≤ l.foldl max a := by
  intro l
  induction l with
  | nil => intro a x h; simp at h
  | cons b l ih =>
    intro a x h
    rcases List.mem_cons.1 h with rfl | h
    · calc x ≤ max a x := le_max_right a x
        _ ≤ _ := foldl_max_init_le l (max a x)
    · exact ih (max a b) x h

theorem foldl_max_mem : ∀ (l : List Int) (a : Int), l.foldl max a ∈ a :: l := by
  intro l
  induction l with
  | nil => intro a; simp
  | cons b l ih =>
    intro a
    rcases List.mem_cons.1 (ih (max a b)) with h | h
    · rcases max_choice a b with hm | hm <;> rw [List.foldl_cons, h, hm] <;> simp
    · simp [List.foldl_cons, List.mem_cons_of_mem, h]

theorem le_maxD {l : List Int} {x : Int} (h : x ∈ l) : x ≤ maxD l := by
  cases l with
  | nil => simp at h
  | cons a l =>
    rcases List.mem_cons.1 h with rfl | h
    · exact foldl_max_init_le l x
    · exact foldl_max_le_of_mem l a x h

theorem maxD_mem {l : List Int} (h : l ≠ []) : maxD l ∈ l := by
  cases l with
  | nil => exact absurd rfl h
  | cons a l => exact foldl_max_mem l a

theorem foldl_min_init_le : ∀ (l : List Int) (a : Int), l.foldl min a ≤ a := by
  intro l
  induction l with
  | nil => intro a; simp
  | cons b l ih =>
    intro a
    calc l.foldl min (min a b) ≤ min a b := ih (min a b)
      _ ≤ a := min_le_left a b

theorem foldl_min_mem_le : ∀ (l : List Int) (a x : Int), x ∈ l → l.foldl min a ≤ x := by
  intro l
  induction l with
  | nil => intro a x h; simp at h
  | cons b l ih =>
    intro a x h
    rcases List.mem_cons.1 h with rfl | h
    · calc _ ≤ min a x := foldl_min_init_le l (min a x)
        _ ≤ x := min_le_right a x
    · exact ih (min a b) x h

theorem foldl_min_mem : ∀ (l : List Int) (a : Int), l.foldl min a ∈ a :: l := by
  intro l
  induction l with
  | nil => intro a; simp
  | cons b l ih =>
    intro a
    rcases List.mem_cons.1 (ih (min a b)) with h | h
    · rcases min_choice a b with hm | hm <;> rw [List.foldl_cons, h, hm] <;> simp
    · simp [List.foldl_cons, List.mem_cons_of_mem, h]

theorem minD_le {l : List Int} {x : Int} (h : x ∈ l) : minD l ≤ x := by
  cases l with
  | nil => simp at h
  | cons a l =>
    rcases List.mem_cons.1 h with rfl | h
    · exact foldl_min_init_le l x
    · exact foldl_min_mem_le l a x h

theorem minD_mem {l : List Int} (h : l ≠ []) : minD l ∈ l := by
  cases l with
  | nil => exact absurd rfl h
  | cons a l => exact foldl_min_mem l a

end MaxMinLemmas

section CleanLemmas

theorem to_datetime_cell_shape (c : Cell) :
    to_datetime_cell c = Cell.na ∨ ∃ d, to_datetime_cell c = Cell.date d := by
  cases c with
  | na => exact Or.inl rfl
  | date d => exact Or.inr ⟨d, rfl⟩
  | num n => exact Or.inr ⟨_, rfl⟩
  | str s =>
    simp only [to_datetime_cell]
    cases parseDateStr s with
    | none => exact Or.inl rfl
    | some d => exact Or.inr ⟨d, rfl⟩

theorem to_numeric_cell_shape (b : Bool) (c : Cell) :
    to_numeric_cell b c = Cell.na ∨ ∃ n, to_numeric_cell b c = Cell.num n := by
  cases c with
  | na => exact Or.inl rfl
  | date d => exact Or.inl rfl
  | num n => exact Or.inr ⟨n, rfl⟩
  | str s =>
    simp only [to_numeric_cell]
    cases parseNumChars (if b then stripCurrency s.data else s.data) with
    | none => exact Or.inl rfl
    | some n => exact Or.inr ⟨n, rfl⟩

theorem quantCoerced_eq_map (t : Table) :
    quantCoerced t = (dropDup t).map (rowCoerce t) := by
  unfold quantCoerced salesCoerced dateParsed rowCoerce
  cases hod : t.hasOrderDate <;> cases hts : t.hasTotalSales <;> cases hq : t.hasQuantity <;>
    simp only [Bool.false_eq_true, if_true, if_false, List.map_map] <;>
    first
      | rfl
      | exact (List.map_id' _).symm
      | exact List.map_congr_left (fun r _ => rfl)

theorem clean_data_ok {t : Table} (hod : t.hasOrderDate = true) (hts : t.hasTotalSales = true) :
    clean_data t =
      .ok { t with rows := ((dropDup t).map (rowCoerce t)).filter keepRow } := by
  rw [clean_data, if_pos ⟨hod, hts⟩, quantCoerced_eq_map]

theorem clean_data_ok_inv {t t2 : Table} (h : clean_data t = .ok t2) :
    t.hasOrderDate = true ∧ t.hasTotalSales = true ∧
      t2 = { t with rows := ((dropDup t).map (rowCoerce t)).filter keepRow } := by
  by_cases hc : t.hasOrderDate = true ∧ t.hasTotalSales = true
  · rw [clean_data_ok hc.1 hc.2] at h
    exact ⟨hc.1, hc.2, (Except.ok.inj h).symm⟩
  · rw [clean_data, if_neg hc] at h
    exact absurd h (by simp)

theorem rowCoerce_clean {t : Table} (hod : t.hasOrderDate = true)
    (hts : t.hasTotalSales = true) (r : Row) (hk : keepRow (rowCoerce t r) = true) :
    RowClean t.hasQuantity (rowCoerce t r) := by
  have hOD : (rowCoerce t r).orderDate = to_datetime_cell r.orderDate := by
    unfold rowCoerce
    cases hq : t.hasQuantity <;> simp [hod, hts]
  have hTS : (rowCoerce t r).totalSales = to_numeric_cell (salesObj t) r.totalSales := by
    unfold rowCoerce
    cases hq : t.hasQuantity <;> simp [hod, hts]
  have hk2 : (!(rowCoerce t r).orderDate.isNA) = true ∧
      (!(rowCoerce t r).totalSales.isNA) = true := by
    simpa [keepRow, Bool.and_eq_true] using hk
  have hkd := hk2.1
  have hks := hk2.2
  refine ⟨?_, ?_, ?_⟩
  · rcases to_datetime_cell_shape r.orderDate with hna | ⟨d, hd⟩
    · rw [hOD, hna] at hkd; simp [Cell.isNA] at hkd
    · exact ⟨d, hOD.trans hd⟩
  · rcases to_numeric_cell_shape (salesObj t) r.totalSales with hna | ⟨n, hn⟩
    · rw [hTS, hna] at hks; simp [Cell.isNA] at hks
    · exact ⟨n, hTS.trans hn⟩
  · intro hq
    have hQ : (rowCoerce t r).quantity = to_numeric_cell (quantObj t)
        (if t.hasTotalSales then r else r).quantity := by
      unfold rowCoerce
      simp [hod, hts, hq]
    rcases to_numeric_cell_shape (quantObj t) r.quantity with hna | ⟨n, hn⟩
    · left; rw [hQ]; simpa [hts] using hna
    · right; exact ⟨n, by rw [hQ]; simpa [hts] using hn⟩

theorem clean_rows_shape {t t2 : Table} (h : clean_data t = .ok t2) :
    ∀ r ∈ t2.rows, RowClean t2.hasQuantity r := by
  obtain ⟨hod, hts, rfl⟩ := clean_data_ok_inv h
  intro r hr
  obtain ⟨hmem, hk⟩ := List.mem_filter.1 hr
  obtain ⟨r0, _, rfl⟩ := List.mem_map.1 hmem
  exact rowCoerce_clean hod hts r0 hk

theorem clean_on_clean {t : Table} (hod : t.hasOrderDate = true)
    (hts : t.hasTotalSales = true) (hcl : ∀ r ∈ t.rows, RowClean t.hasQuantity r) :
    clean_data t = .ok { t with rows := dedupKeepFirst t.rows } := by
  have hdd : ∀ r ∈ dropDup t, RowClean t.hasQuantity r := by
    intro r hr
    exact hcl r (mem_dedupKeepFirst.1 hr)
  have hdp : dateParsed t = dropDup t := by
    rw [dateParsed, if_pos hod]
    refine List.map_congr_left (fun r hr => ?_) |>.trans (List.map_id' _)
    obtain ⟨⟨d, hd⟩, _, _⟩ := hdd r hr
    have hfix : to_datetime_cell r.orderDate = r.orderDate := by rw [hd]; rfl
    rw [hfix]
  have hso : salesObj t = false := by
    rw [salesObj, hdp]
    rw [List.any_eq_false]
    intro r hr
    obtain ⟨_, ⟨n, hn⟩, _⟩ := hdd r hr
    rw [hn]
    simp [Cell.isStr]
  have hsc : salesCoerced t = dropDup t := by
    rw [salesCoerced, if_pos hts, hdp]
    refine List.map_congr_left (fun r hr => ?_) |>.trans (List.map_id' _)
    obtain ⟨_, ⟨n, hn⟩, _⟩ := hdd r hr
    have hfix : to_numeric_cell (salesObj t) r.totalSales = r.totalSales := by rw [hn]; rfl
    rw [hfix]
  have hqc : quantCoerced t = dropDup t := by
    rw [quantCoerced, hsc]
    cases hq : t.hasQuantity with
    | false => simp
    | true =>
      simp only [if_true]
      refine List.map_congr_left (fun r hr => ?_) |>.trans (List.map_id' _)
      obtain ⟨_, _, hqr⟩ := hdd r hr
      have hfix : to_numeric_cell (quantObj t) r.quantity = r.quantity := by
        rcases hqr hq with hna | ⟨n, hn⟩
        · rw [hna]; rfl
        · rw [hn]; rfl
      rw [hfix]
  rw [clean_data, if_pos ⟨hod, hts⟩, hqc]
  have hfil : (dropDup t).filter keepRow = dropDup t := by
    rw [List.filter_eq_self]
    intro r hr
    obtain ⟨⟨d, hd⟩, ⟨n, hn⟩, _⟩ := hdd r hr
    unfold keepRow
    rw [hd, hn]
    rfl
  rw [hfil]
  rfl

end CleanLemmas

/-- Claim C2 (amended): on every table containing the OrderDate and TotalSales
columns, `clean_data` is total — it returns a table and never raises;
unparseable individual values only ever remove rows via the final dropna. -/
theorem C2_clean_total_on_schema_tables (t : Table)
    (hod : t.hasOrderDate = true) (hts : t.hasTotalSales = true) :
    ∃ t2, clean_data t = Except.ok t2 :=
  ⟨_, clean_data_ok hod hts⟩

/-- Claim C2, counterexample to the unrestricted claim: on a table missing the
OrderDate column, `clean_data` raises `KeyError` from
`dropna(subset=['OrderDate', 'TotalSales'])`. -/
theorem C2_missing_column_raises :
    clean_data tableNoOrderDate =
      Except.error (r"KeyError: OrderDate or TotalSales not in axis") := by
  decide

/-- Witness for C2 at a concrete table. -/
theorem C2_clean_total_witness :
    tableTyped.hasOrderDate = true ∧ tableTyped.hasTotalSales = true ∧
      ∃ t2, clean_data tableTyped = Except.ok t2 :=
  ⟨by decide, by decide, C2_clean_total_on_schema_tables tableTyped (by decide) (by decide)⟩

/-- Claim C3 (amended): every row of a cleaned table has a typed non-null date
and a typed non-null sales amount; and the output has no duplicate rows
whenever the coercion of the deduplicated raw rows creates no new collisions
(exact raw duplicates are always removed, but rows becoming identical only
after coercion can survive, as the counterexample shows). -/
theorem C3_clean_output_shape (t t2 : Table)
    (hod : t.hasOrderDate = true) (hts : t.hasTotalSales = true)
    (h : clean_data t = Except.ok t2) :
    (∀ rr ∈ t2.rows,
        (∃ d, rr.orderDate = Cell.date d) ∧ ∃ n, rr.totalSales = Cell.num n) ∧
      ((quantCoerced t).Nodup → t2.rows.Nodup) := by
  obtain ⟨_, _, rfl⟩ := clean_data_ok_inv h
  constructor
  · intro rr hrr
    obtain ⟨hmem, hk⟩ := List.mem_filter.1 hrr
    obtain ⟨r0, _, rfl⟩ := List.mem_map.1 hmem
    obtain ⟨h1, h2, _⟩ := rowCoerce_clean hod hts r0 hk
    exact ⟨h1, h2⟩
  · intro hnd
    rw [quantCoerced_eq_map] at hnd
    exact hnd.filter _

/-- Claim C3, counterexample to the no-duplicates part as stated: the rows
`TotalSales = "$100"` and `TotalSales = "100"` are distinct raw rows, so
`drop_duplicates` (which runs before coercion) keeps both, and after currency
stripping and numeric coercion the cleaned output contains two fully
identical rows. -/
theorem C3_coercion_duplicates_survive :
    clean_data tableDollarDup = Except.ok tableDollarDupOut ∧
      ¬ tableDollarDupOut.rows.Nodup := by
  constructor
  · decide
  · decide

/-- Witness for C3 at a concrete table. -/
theorem C3_clean_output_shape_witness :
    clean_data tableTyped = Except.ok tableTyped ∧
      ((∀ rr ∈ tableTyped.rows,
          (∃ d, rr.orderDate = Cell.date d) ∧ ∃ n, rr.totalSales = Cell.num n) ∧
        ((quantCoerced tableTyped).Nodup → tableTyped.rows.Nodup)) :=
  ⟨by decide, C3_clean_output_shape tableTyped tableTyped (by decide) (by decide) (by decide)⟩

/-- Claim C4 (amended): `clean_data` is idempotent from the second application
on — cleaning a cleaned table only removes the duplicate rows that coercion
may have created, after which cleaning is the identity. Unrestricted
idempotence fails (see the counterexample). -/
theorem C4_clean_eventually_idempotent (t : Table) :
    ((clean_data t).bind clean_data).bind clean_data = (clean_data t).bind clean_data := by
  cases h : clean_data t with
  | error e => rfl
  | ok t2 =>
    obtain ⟨hod, hts, ht2⟩ := clean_data_ok_inv h
    have hod2 : t2.hasOrderDate = true := by rw [ht2]; exact hod
    have hts2 : t2.hasTotalSales = true := by rw [ht2]; exact hts
    have hsh : ∀ r ∈ t2.rows, RowClean t2.hasQuantity r := clean_rows_shape h
    have h2 : clean_data t2 = .ok { t2 with rows := dedupKeepFirst t2.rows } :=
      clean_on_clean hod2 hts2 hsh
    have hsh3 : ∀ r ∈ ({ t2 with rows := dedupKeepFirst t2.rows } : Table).rows,
        RowClean ({ t2 with rows := dedupKeepFirst t2.rows } : Table).hasQuantity r := by
      intro r hr
      exact hsh r (mem_dedupKeepFirst.1 hr)
    have h3 : clean_data { t2 with rows := dedupKeepFirst t2.rows } =
        .ok { t2 with rows := dedupKeepFirst t2.rows } := by
      have := clean_on_clean (t := { t2 with rows := dedupKeepFirst t2.rows })
        hod2 hts2 hsh3
      rwa [dedupKeepFirst_idem t2.rows] at this
    show Except.bind (clean_data t2) clean_data = clean_data t2
    rw [h2]
    show clean_data { t2 with rows := dedupKeepFirst t2.rows } =
      Except.ok { t2 with rows := dedupKeepFirst t2.rows }
    exact h3

/-- Claim C4, counterexample: cleaning is not idempotent as stated — on the
"$200"/"200" table the first cleaning produces two identical rows, and the
second cleaning removes one of them, so `clean(clean(T)) ≠ clean(T)`. -/
theorem C4_clean_not_idempotent :
    (clean_data tableDollarDup2).bind clean_data ≠ clean_data tableDollarDup2 := by
  decide

/-- Claim C10: with both critical columns present, a row is dropped by
cleaning exactly when its coerced date or coerced sales amount is missing;
in particular a row whose quantity fails numeric coercion but whose date and
sales survive is kept, with its quantity set to missing. -/
theorem C10_row_drop_criteria (t t2 : Table)
    (hod : t.hasOrderDate = true) (hts : t.hasTotalSales = true)
    (h : clean_data t = Except.ok t2) :
    (∀ rr ∈ t2.rows, ∃ r0 ∈ t.rows, rr = rowCoerce t r0 ∧ keepRow rr = true) ∧
      (∀ r0 ∈ t.rows, keepRow (rowCoerce t r0) = true → rowCoerce t r0 ∈ t2.rows) ∧
      (t.hasQuantity = true → ∀ r0 ∈ t.rows,
        to_numeric_cell (quantObj t) r0.quantity = Cell.na →
        keepRow (rowCoerce t r0) = true →
        rowCoerce t r0 ∈ t2.rows ∧ (rowCoerce t r0).quantity = Cell.na) := by
  obtain ⟨_, _, rfl⟩ := clean_data_ok_inv h
  have hquant : t.hasQuantity = true →
      ∀ r0 : Row, (rowCoerce t r0).quantity = to_numeric_cell (quantObj t) r0.quantity := by
    intro hq r0
    unfold rowCoerce
    cases ho : t.hasOrderDate <;> cases hs : t.hasTotalSales <;> simp [hq]
  refine ⟨?_, ?_, ?_⟩
  · intro rr hrr
    obtain ⟨hmem, hk⟩ := List.mem_filter.1 hrr
    obtain ⟨r0, hr0, rfl⟩ := List.mem_map.1 hmem
    exact ⟨r0, mem_dedupKeepFirst.1 hr0, rfl, hk⟩
  · intro r0 hr0 hk
    exact List.mem_filter.2 ⟨List.mem_map_of_mem _ (mem_dedupKeepFirst.2 hr0), hk⟩
  · intro hq r0 hr0 hna hk
    refine ⟨List.mem_filter.2 ⟨List.mem_map_of_mem _ (mem_dedupKeepFirst.2 hr0), hk⟩, ?_⟩
    rw [hquant hq r0, hna]

/-- Witness for C10 at a concrete table with an uncoercible quantity. -/
theorem C10_row_drop_criteria_witness :
    clean_data tableBadQuantity = Except.ok tableBadQuantityOut ∧
      ((∀ rr ∈ tableBadQuantityOut.rows,
          ∃ r0 ∈ tableBadQuantity.rows,
            rr = rowCoerce tableBadQuantity r0 ∧ keepRow rr = true) ∧
        (∀ r0 ∈ tableBadQuantity.rows,
          keepRow (rowCoerce tableBadQuantity r0) = true →
            rowCoerce tableBadQuantity r0 ∈ tableBadQuantityOut.rows) ∧
        (tableBadQuantity.hasQuantity = true → ∀ r0 ∈ tableBadQuantity.rows,
          to_numeric_cell (quantObj tableBadQuantity) r0.quantity = Cell.na →
          keepRow (rowCoerce tableBadQuantity r0) = true →
          rowCoerce tableBadQuantity r0 ∈ tableBadQuantityOut.rows ∧
            (rowCoerce tableBadQuantity r0).quantity = Cell.na)) :=
  ⟨by decide, C10_row_drop_criteria tableBadQuantity tableBadQuantityOut
    (by decide) (by decide) (by decide)⟩

/-- Claim C1 (the code, as written, violates it): on a table with exactly one
distinct customer the recency `pd.qcut` sits outside the `try` block, its
`ValueError` (duplicate bin edges on a single recency value) escapes, and the
segmentation raises instead of falling back to `f_score = m_score = 1`. -/
theorem C1_single_customer_segment_raises :
    segmentTable oneCustomerRows =
      Except.error (r"ValueError: Bin edges must be unique") := by
  decide

theorem mem_sortedCustomers {rows : List Txn} {c : String} :
    c ∈ sortedCustomers rows ↔ c ∈ rows.map (·.customerId) := by
  rw [sortedCustomers]
  rw [(List.perm_insertionSort _ _).mem_iff]
  exact mem_dedupKeepFirst

/-- Claim C9: on a non-empty filtered table every per-customer recency is at
least 1 day, because the snapshot instant is the table-wide maximum order
date plus one day. -/
theorem C9_recency_at_least_one (rows : List Txn) (hne : rows ≠ []) :
    ∀ x ∈ recencies rows, 1 ≤ x := by
  intro x hx
  obtain ⟨c, hc, rfl⟩ := List.mem_map.1 hx
  obtain ⟨rr, hrr, hcid⟩ := List.mem_map.1 (mem_sortedCustomers.1 hc)
  have hmem : rr ∈ txnsOf rows c := by
    rw [txnsOf]
    exact List.mem_filter.2 ⟨hrr, by simp [hcid]⟩
  have hnecust : (txnsOf rows c).map (·.orderDate) ≠ [] :=
    List.ne_nil_of_mem (List.mem_map_of_mem _ hmem)
  have hmaxmem : maxD ((txnsOf rows c).map (·.orderDate)) ∈
      (txnsOf rows c).map (·.orderDate) := maxD_mem hnecust
  obtain ⟨rt, hrt, hrteq⟩ := List.mem_map.1 hmaxmem
  have hrtrows : rt ∈ rows := (List.mem_filter.1 hrt).1
  have hle : maxD ((txnsOf rows c).map (·.orderDate)) ≤ maxD (rows.map (·.orderDate)) := by
    rw [← hrteq]
    exact le_maxD (List.mem_map_of_mem _ hrtrows)
  rw [recencyOf, snapshotDate]
  omega

/-- Witness for C9 at a concrete table. -/
theorem C9_recency_at_least_one_witness :
    twoCustomerRows ≠ [] ∧ ∀ x ∈ recencies twoCustomerRows, 1 ≤ x :=
  ⟨by decide, C9_recency_at_least_one twoCustomerRows (by decide)⟩

section SortLemmas

theorem sortInt_perm (l : List Int) : (sortInt l).Perm l :=
  List.perm_insertionSort _ l

theorem sortInt_sorted (l : List Int) :
    List.Sorted (fun a b : Int => a ≤ b) (sortInt l) :=
  List.sorted_insertionSort _ l

theorem mem_sortInt {l : List Int} {x : Int} : x ∈ sortInt l ↔ x ∈ l :=
  (sortInt_perm l).mem_iff

theorem sortInt_length (l : List Int) : (sortInt l).length = l.length :=
  List.length_insertionSort _ l

theorem getD_eq_of_lt {α : Type} (l : List α) {i : Nat} (d1 d2 : α) (h : i < l.length) :
    l.getD i d1 = l.getD i d2 := by
  rw [List.getD_eq_getElem l d1 h, List.getD_eq_getElem l d2 h]

theorem getD_map {α β : Type} (f : α → β) (l : List α) {i : Nat} (d : β) (d0 : α)
    (h : i < l.length) : (l.map f).getD i d = f (l.getD i d0) := by
  rw [List.getD_eq_getElem _ d (by simpa using h), List.getElem_map,
    List.getD_eq_getElem _ d0 h]

theorem sorted_getD_mono {s : List Int} (hs : List.Sorted (fun a b : Int => a ≤ b) s)
    {i j : Nat} (hij : i ≤ j) (hj : j < s.length) :
    s.getD i 0 ≤ s.getD j 0 := by
  rcases Nat.eq_or_lt_of_le hij with rfl | hlt
  · exact le_refl _
  · have hi : i < s.length := lt_trans hlt hj
    have := hs.rel_get_of_lt (a := ⟨i, hi⟩) (b := ⟨j, hj⟩) (by simpa using hlt)
    rw [List.getD_eq_getElem _ _ hi, List.getD_eq_getElem _ _ hj]
    simpa using this

theorem sorted_le_getD_last {s : List Int} (hs : List.Sorted (fun a b : Int => a ≤ b) s)
    {x : Int} (hx : x ∈ s) : x ≤ s.getD (s.length - 1) 0 := by
  obtain ⟨i, hget⟩ := List.mem_iff_get.1 hx
  rw [← hget, List.get_eq_getElem, ← List.getD_eq_getElem s 0 i.2]
  exact sorted_getD_mono hs (by have := i.2; omega) (by have := i.2; omega)

end SortLemmas

section QcutLemmas

theorem qcut4_eq_some {vals : List Int} {bins : List Nat} (h : qcut4 vals = some bins) :
    vals ≠ [] ∧
      (edge4 (sortInt vals) 0 < edge4 (sortInt vals) 1 ∧
        edge4 (sortInt vals) 1 < edge4 (sortInt vals) 2 ∧
        edge4 (sortInt vals) 2 < edge4 (sortInt vals) 3 ∧
        edge4 (sortInt vals) 3 < edge4 (sortInt vals) 4) ∧
      bins = vals.map (fun v =>
        binOf (edge4 (sortInt vals) 1) (edge4 (sortInt vals) 2)
          (edge4 (sortInt vals) 3) (4 * v)) := by
  unfold qcut4 at h
  split_ifs at h with h1 h2
  · exact ⟨h1, h2, (Option.some.inj h).symm⟩

theorem edge4_ge_min {s : List Int} (hs : List.Sorted (fun a b : Int => a ≤ b) s)
    (hne : s ≠ []) {m : Int} (hm : ∀ x ∈ s, m ≤ x) {j : Nat} (hj : j ≤ 4) :
    4 * m ≤ edge4 s j := by
  have hn : 1 ≤ s.length := List.length_pos.2 hne
  simp only [edge4]
  have hple : j * (s.length - 1) ≤ 4 * (s.length - 1) := Nat.mul_le_mul_right _ hj
  have hi : j * (s.length - 1) / 4 < s.length := by omega
  have ha : m ≤ s.getD (j * (s.length - 1) / 4) 0 := hm _ (getD_mem s _ 0 hi)
  by_cases hg : j * (s.length - 1) % 4 = 0
  · rw [hg]
    push_cast
    linarith
  · have hij : j * (s.length - 1) / 4 + 1 < s.length := by omega
    have hb : m ≤ s.getD (j * (s.length - 1) / 4 + 1) 0 := hm _ (getD_mem s _ 0 hij)
    have hab : s.getD (j * (s.length - 1) / 4) 0 ≤ s.getD (j * (s.length - 1) / 4 + 1) 0 :=
      sorted_getD_mono hs (Nat.le_succ _) hij
    have hg0 : (0 : Int) ≤ ((j * (s.length - 1) % 4 : Nat) : Int) := Int.natCast_nonneg _
    have hprod : (0 : Int) ≤ ((j * (s.length - 1) % 4 : Nat) : Int) *
        (s.getD (j * (s.length - 1) / 4 + 1) 0 - s.getD (j * (s.length - 1) / 4) 0) :=
      mul_nonneg hg0 (by linarith)
    linarith

theorem edge4_zero {s : List Int} : edge4 s 0 = 4 * s.getD 0 0 := by
  simp only [edge4]
  norm_num

theorem edge4_last {s : List Int} : edge4 s 4 = 4 * s.getD (s.length - 1) 0 := by
  simp only [edge4]
  have h1 : 4 * (s.length - 1) / 4 = s.length - 1 := by omega
  have h2 : 4 * (s.length - 1) % 4 = 0 := by omega
  rw [h1, h2]
  push_cast
  ring

theorem qcut4_min_bin {vals : List Int} {bins : List Nat} (h : qcut4 vals = some bins)
    {i : Nat} (hi : i < vals.length) (hmin : ∀ x ∈ vals, vals.getD i 0 ≤ x) :
    bins.getD i 0 = 0 := by
  obtain ⟨hne, hchain, rfl⟩ := qcut4_eq_some h
  rw [getD_map _ _ 0 0 hi]
  have hsne : sortInt vals ≠ [] := by
    intro hcon
    apply hne
    apply List.length_eq_zero.1
    rw [← sortInt_length vals, hcon]
    rfl
  have hle : 4 * vals.getD i 0 ≤ edge4 (sortInt vals) 1 :=
    edge4_ge_min (sortInt_sorted vals) hsne
      (fun x hx => hmin x (mem_sortInt.1 hx)) (by omega)
  unfold binOf
  rw [if_pos hle]

theorem qcut4_max_bin {vals : List Int} {bins : List Nat} (h : qcut4 vals = some bins)
    {i : Nat} (hi : i < vals.length) (hmax : ∀ x ∈ vals, x ≤ vals.getD i 0) :
    bins.getD i 0 = 3 := by
  obtain ⟨hne, hchain, rfl⟩ := qcut4_eq_some h
  rw [getD_map _ _ 0 0 hi]
  have hsne : sortInt vals ≠ [] := by
    intro hcon
    apply hne
    apply List.length_eq_zero.1
    rw [← sortInt_length vals, hcon]
    rfl
  have hpos : 0 < (sortInt vals).length := by
    rw [sortInt_length]
    exact List.length_pos.2 hne
  have hlast : (sortInt vals).getD ((sortInt vals).length - 1) 0 ≤ vals.getD i 0 := by
    refine hmax _ (mem_sortInt.1 (getD_mem _ _ 0 ?_))
    omega
  have he4 : edge4 (sortInt vals) 4 ≤ 4 * vals.getD i 0 := by
    rw [edge4_last]
    linarith
  obtain ⟨h01, h12, h23, h34⟩ := hchain
  unfold binOf
  rw [if_neg (by omega), if_neg (by omega), if_neg (by omega)]

end QcutLemmas

section InsertBoundsLemmas

theorem insInt_head (b : Int) (B0 : List Int) (h : ∀ x ∈ B0, b ≤ x) :
    insInt b B0 = b :: B0 := by
  cases B0 with
  | nil => rfl
  | cons c B0x => exact List.orderedInsert_of_le _ _ (h c (List.mem_cons_self c B0x))

theorem insInt_bounds : ∀ (B : List Int), List.Sorted (fun a b : Int => a ≤ b) B →
    ∀ (v w : Int), v ≤ w → ∀ (k : Nat),
      (insInt v B).getD k 0 ≤ (insInt w B).getD k 0 ∧
        (insInt w B).getD k 0 ≤ (insInt v B).getD k 0 + (w - v) := by
  intro B
  induction B with
  | nil =>
    intro _ v w hvw k
    cases k with
    | zero => exact ⟨by simpa [insInt] using hvw, by simp [insInt] <;> omega⟩
    | succ k => exact ⟨by simp [insInt], by simp [insInt] <;> omega⟩
  | cons b B0 ih =>
    intro hB v w hvw k
    have hB0 : List.Sorted (fun a b : Int => a ≤ b) B0 := hB.of_cons
    have hble : ∀ x ∈ B0, b ≤ x := List.rel_of_sorted_cons hB
    by_cases hvb : v ≤ b
    · by_cases hwb : w ≤ b
      · rw [show insInt v (b :: B0) = v :: b :: B0 from List.orderedInsert_of_le _ _ hvb,
          show insInt w (b :: B0) = w :: b :: B0 from List.orderedInsert_of_le _ _ hwb]
        cases k with
        | zero => exact ⟨hvw, by simp <;> omega⟩
        | succ k => exact ⟨le_refl _, by simp <;> omega⟩
      · have hbw : b ≤ w := le_of_lt (lt_of_not_le hwb)
        rw [show insInt v (b :: B0) = v :: b :: B0 from List.orderedInsert_of_le _ _ hvb,
          show insInt w (b :: B0) = b :: insInt w B0 from by
            simp [insInt, List.orderedInsert, hwb]]
        cases k with
        | zero =>
          refine ⟨hvb, ?_⟩
          simp only [List.getD_cons_zero]
          omega
        | succ k =>
          obtain ⟨ih1, ih2⟩ := ih hB0 b w hbw k
          rw [insInt_head b B0 hble] at ih1 ih2
          simp only [List.getD_cons_succ]
          exact ⟨ih1, by omega⟩
    · have hbv : b < v := lt_of_not_le hvb
      have hwb : ¬ w ≤ b := fun hcon => hvb (le_trans hvw hcon)
      rw [show insInt v (b :: B0) = b :: insInt v B0 from by
            simp [insInt, List.orderedInsert, hvb],
        show insInt w (b :: B0) = b :: insInt w B0 from by
            simp [insInt, List.orderedInsert, hwb]]
      cases k with
      | zero => exact ⟨le_refl _, by simp <;> omega⟩
      | succ k =>
        simp only [List.getD_cons_succ]
        exact ih hB0 v w hvw k

theorem sortInt_cons (v : Int) (l : List Int) :
    sortInt (v :: l) = insInt v (sortInt l) := rfl

theorem sortInt_set_version (vals : List Int) (i : Nat) (hi : i < vals.length) (x : Int) :
    sortInt (vals.set i x) = insInt x (sortInt (vals.eraseIdx i)) := by
  have hperm : (vals.set i x).Perm (x :: vals.eraseIdx i) := perm_set_cons_eraseIdx vals i x hi
  have h2 : sortInt (vals.set i x) = sortInt (x :: vals.eraseIdx i) :=
    List.eq_of_perm_of_sorted
      ((sortInt_perm _).trans (hperm.trans (sortInt_perm _).symm))
      (sortInt_sorted _) (sortInt_sorted _)
  rw [h2, sortInt_cons]

theorem sortInt_self_version (vals : List Int) (i : Nat) (hi : i < vals.length) :
    sortInt vals = insInt (vals.getD i 0) (sortInt (vals.eraseIdx i)) := by
  conv_lhs => rw [← set_getD_self vals i 0]
  exact sortInt_set_version vals i hi _

theorem sortInt_set_bounds (vals : List Int) (i : Nat) (hi : i < vals.length)
    (δ : Int) (hδ : 0 ≤ δ) (k : Nat) :
    (sortInt vals).getD k 0 ≤ (sortInt (vals.set i (vals.getD i 0 + δ))).getD k 0 ∧
      (sortInt (vals.set i (vals.getD i 0 + δ))).getD k 0 ≤ (sortInt vals).getD k 0 + δ := by
  rw [sortInt_set_version vals i hi, sortInt_self_version vals i hi]
  have := insInt_bounds (sortInt (vals.eraseIdx i)) (sortInt_sorted _)
    (vals.getD i 0) (vals.getD i 0 + δ) (by omega) k
  constructor
  · exact this.1
  · have h2 := this.2
    omega

theorem edge4_bound {s s2 : List Int} (hlen : s2.length = s.length) {δ : Int} (hδ : 0 ≤ δ)
    (hb : ∀ k, s.getD k 0 ≤ s2.getD k 0 ∧ s2.getD k 0 ≤ s.getD k 0 + δ) (j : Nat) :
    edge4 s2 j ≤ edge4 s j + 4 * δ := by
  simp only [edge4]
  rw [hlen]
  obtain ⟨ha1, ha2⟩ := hb (j * (s.length - 1) / 4)
  obtain ⟨hb1, hb2⟩ := hb (j * (s.length - 1) / 4 + 1)
  have hg0 : (0 : Int) ≤ ((j * (s.length - 1) % 4 : Nat) : Int) := Int.natCast_nonneg _
  have hg3 : ((j * (s.length - 1) % 4 : Nat) : Int) ≤ 3 := by
    have h4 : j * (s.length - 1) % 4 < 4 := Nat.mod_lt _ (by omega)
    omega
  have p1 : ((j * (s.length - 1) % 4 : Nat) : Int) *
      (s2.getD (j * (s.length - 1) / 4 + 1) 0 - s2.getD (j * (s.length - 1) / 4 + 1) 0 + δ) =
      ((j * (s.length - 1) % 4 : Nat) : Int) * δ := by ring
  nlinarith [mul_le_mul_of_nonneg_left
      (show s2.getD (j * (s.length - 1) / 4 + 1) 0 - s2.getD (j * (s.length - 1) / 4) 0 ≤
        s.getD (j * (s.length - 1) / 4 + 1) 0 - s.getD (j * (s.length - 1) / 4) 0 + δ
        from by omega) hg0,
    mul_le_mul_of_nonneg_left
      (show s2.getD (j * (s.length - 1) / 4 + 1) 0 - s2.getD (j * (s.length - 1) / 4) 0 ≥
        s.getD (j * (s.length - 1) / 4 + 1) 0 - s.getD (j * (s.length - 1) / 4) 0 - δ
        from by omega) hg0]

theorem binOf_mono {e1 e2 e3 f1 f2 f3 x d : Int} (hd : 0 ≤ d)
    (h1 : f1 ≤ e1 + d) (h2 : f2 ≤ e2 + d) (h3 : f3 ≤ e3 + d) :
    binOf e1 e2 e3 x ≤ binOf f1 f2 f3 (x + d) := by
  unfold binOf
  split_ifs <;> omega

theorem qcut4_set_mono {vals : List Int} {i : Nat} (hi : i < vals.length) {δ : Int}
    (hδ : 0 ≤ δ) {bins bins2 : List Nat}
    (h1 : qcut4 vals = some bins)
    (h2 : qcut4 (vals.set i (vals.getD i 0 + δ)) = some bins2) :
    bins.getD i 0 ≤ bins2.getD i 0 := by
  obtain ⟨hne, hch, rfl⟩ := qcut4_eq_some h1
  obtain ⟨hne2, hch2, rfl⟩ := qcut4_eq_some h2
  rw [getD_map _ _ 0 0 hi, getD_map _ _ 0 0 (by simpa using hi), getD_set_self vals i _ 0 hi]
  have hlen : (sortInt (vals.set i (vals.getD i 0 + δ))).length = (sortInt vals).length := by
    rw [sortInt_length, sortInt_length, List.length_set]
  have hbounds := sortInt_set_bounds vals i hi δ hδ
  have he1 := edge4_bound hlen hδ hbounds 1
  have he2 := edge4_bound hlen hδ hbounds 2
  have he3 := edge4_bound hlen hδ hbounds 3
  have hx : (4 : Int) * (vals.getD i 0 + δ) = 4 * vals.getD i 0 + 4 * δ := by ring
  rw [hx]
  exact binOf_mono (by omega) he1 he2 he3

end InsertBoundsLemmas

section GroupLemmas

theorem nodup_sortedCustomers (rows : List Txn) : (sortedCustomers rows).Nodup := by
  rw [sortedCustomers]
  exact (List.perm_insertionSort _ _).nodup_iff.2 (nodup_dedupKeepFirst _)

theorem map_customerId_append_set (l₁ l₂ : List Txn) (dt : Int) (c : String) (m1 m2 : Int) :
    (l₁ ++ Txn.mk dt c m1 :: l₂).map (·.customerId) =
      (l₁ ++ Txn.mk dt c m2 :: l₂).map (·.customerId) := by
  simp

theorem sortedCustomers_append_set (l₁ l₂ : List Txn) (dt : Int) (c : String) (m1 m2 : Int) :
    sortedCustomers (l₁ ++ Txn.mk dt c m1 :: l₂) =
      sortedCustomers (l₁ ++ Txn.mk dt c m2 :: l₂) := by
  unfold sortedCustomers
  rw [map_customerId_append_set l₁ l₂ dt c m1 m2]

theorem freqOf_append_set (l₁ l₂ : List Txn) (dt : Int) (c c2 : String) (m1 m2 : Int) :
    freqOf (l₁ ++ Txn.mk dt c m1 :: l₂) c2 = freqOf (l₁ ++ Txn.mk dt c m2 :: l₂) c2 := by
  unfold freqOf txnsOf
  simp only [List.filter_append, List.length_append, List.filter_cons]
  split_ifs <;> simp_all

theorem frequencies_append_set (l₁ l₂ : List Txn) (dt : Int) (c : String) (m1 m2 : Int) :
    frequencies (l₁ ++ Txn.mk dt c m1 :: l₂) = frequencies (l₁ ++ Txn.mk dt c m2 :: l₂) := by
  unfold frequencies
  rw [sortedCustomers_append_set l₁ l₂ dt c m1 m2]
  exact List.map_congr_left (fun c2 _ => freqOf_append_set l₁ l₂ dt c c2 m1 m2)

theorem monOf_append_same (l₁ l₂ : List Txn) (dt : Int) (c : String) (m δ : Int) :
    monOf (l₁ ++ Txn.mk dt c (m + δ) :: l₂) c = monOf (l₁ ++ Txn.mk dt c m :: l₂) c + δ := by
  unfold monOf txnsOf
  simp [List.filter_append, List.filter_cons, List.sum_append]
  ring

theorem monOf_append_other (l₁ l₂ : List Txn) (dt : Int) (c c2 : String) (m1 m2 : Int)
    (hne : c2 ≠ c) :
    monOf (l₁ ++ Txn.mk dt c m1 :: l₂) c2 = monOf (l₁ ++ Txn.mk dt c m2 :: l₂) c2 := by
  unfold monOf txnsOf
  simp [List.filter_append, List.filter_cons, Ne.symm hne]

theorem ext_getD {α : Type} (d : α) {l₁ l₂ : List α} (hlen : l₁.length = l₂.length)
    (h : ∀ j, j < l₁.length → l₁.getD j d = l₂.getD j d) : l₁ = l₂ := by
  refine List.ext_get hlen (fun n h₁ h₂ => ?_)
  have hx := h n h₁
  rw [List.getD_eq_getElem _ d h₁, List.getD_eq_getElem _ d h₂] at hx
  simpa using hx

theorem getD_set {α : Type} (l : List α) (i j : Nat) (x d : α) (hj : j < l.length) :
    (l.set i x).getD j d = if i = j then x else l.getD j d := by
  rw [List.getD_eq_getElem _ d (by simpa using hj), List.getElem_set]
  split_ifs with hij
  · rfl
  · rw [List.getD_eq_getElem _ d hj]

theorem getD_indexOf {α : Type} [DecidableEq α] {l : List α} {c : α} (d : α) (h : c ∈ l) :
    l.getD (l.indexOf c) d = c := by
  have hidx := List.indexOf_lt_length.2 h
  rw [List.getD_eq_getElem _ d hidx]
  exact List.getElem_indexOf hidx

theorem monetaries_append_set (l₁ l₂ : List Txn) (dt : Int) (c : String) (m δ : Int) :
    monetaries (l₁ ++ Txn.mk dt c (m + δ) :: l₂) =
      (monetaries (l₁ ++ Txn.mk dt c m :: l₂)).set
        ((sortedCustomers (l₁ ++ Txn.mk dt c m :: l₂)).indexOf c)
        ((monetaries (l₁ ++ Txn.mk dt c m :: l₂)).getD
          ((sortedCustomers (l₁ ++ Txn.mk dt c m :: l₂)).indexOf c) 0 + δ) := by
  have hcb := sortedCustomers_append_set l₁ l₂ dt c (m + δ) m
  have hnd : (sortedCustomers (l₁ ++ Txn.mk dt c m :: l₂)).Nodup := nodup_sortedCustomers _
  have hcin : c ∈ sortedCustomers (l₁ ++ Txn.mk dt c m :: l₂) := by
    rw [mem_sortedCustomers]
    simp
  have hidx : (sortedCustomers (l₁ ++ Txn.mk dt c m :: l₂)).indexOf c <
      (sortedCustomers (l₁ ++ Txn.mk dt c m :: l₂)).length :=
    List.indexOf_lt_length.2 hcin
  have hlenB : (monetaries (l₁ ++ Txn.mk dt c (m + δ) :: l₂)).length =
      (sortedCustomers (l₁ ++ Txn.mk dt c m :: l₂)).length := by
    unfold monetaries
    rw [hcb, List.length_map]
  have hlenA : (monetaries (l₁ ++ Txn.mk dt c m :: l₂)).length =
      (sortedCustomers (l₁ ++ Txn.mk dt c m :: l₂)).length := by
    unfold monetaries
    rw [List.length_map]
  refine ext_getD 0 ?_ (fun j hj => ?_)
  · rw [List.length_set, hlenB, hlenA]
  · have hjc : j < (sortedCustomers (l₁ ++ Txn.mk dt c m :: l₂)).length := by
      rw [← hlenB]
      exact hj
    have hLHS : (monetaries (l₁ ++ Txn.mk dt c (m + δ) :: l₂)).getD j 0 =
        monOf (l₁ ++ Txn.mk dt c (m + δ) :: l₂)
          ((sortedCustomers (l₁ ++ Txn.mk dt c m :: l₂)).getD j (r"")) := by
      unfold monetaries
      rw [hcb]
      exact getD_map _ _ 0 (r"") hjc
    have hRHS : (monetaries (l₁ ++ Txn.mk dt c m :: l₂)).getD j 0 =
        monOf (l₁ ++ Txn.mk dt c m :: l₂)
          ((sortedCustomers (l₁ ++ Txn.mk dt c m :: l₂)).getD j (r"")) := by
      unfold monetaries
      exact getD_map _ _ 0 (r"") hjc
    rw [hLHS, getD_set _ _ _ _ _ (by rw [hlenA]; exact hjc)]
    by_cases hij : (sortedCustomers (l₁ ++ Txn.mk dt c m :: l₂)).indexOf c = j
    · rw [if_pos hij]
      have hcget : (sortedCustomers (l₁ ++ Txn.mk dt c m :: l₂)).getD j (r"") = c := by
        rw [← hij]
        exact getD_indexOf _ hcin
      rw [hcget]
      have hmon : (monetaries (l₁ ++ Txn.mk dt c m :: l₂)).getD
          ((sortedCustomers (l₁ ++ Txn.mk dt c m :: l₂)).indexOf c) 0 =
          monOf (l₁ ++ Txn.mk dt c m :: l₂) c := by
        rw [hij, hRHS, hcget]
      rw [hmon]
      exact monOf_append_same l₁ l₂ dt c m δ
    · rw [if_neg hij, hRHS]
      refine monOf_append_other l₁ l₂ dt c _ (m + δ) m ?_
      intro hcon
      apply hij
      have hcg : (sortedCustomers (l₁ ++ Txn.mk dt c m :: l₂)).getD j (r"") =
          (sortedCustomers (l₁ ++ Txn.mk dt c m :: l₂)).getD
            ((sortedCustomers (l₁ ++ Txn.mk dt c m :: l₂)).indexOf c) (r"") := by
        rw [getD_indexOf _ hcin]
        exact hcon
      rw [List.getD_eq_getElem _ _ hjc, List.getD_eq_getElem _ _ hidx] at hcg
      exact ((hnd.getElem_inj_iff).1 hcg.symm)

end GroupLemmas

theorem qcut4_length {vals : List Int} {bins : List Nat} (h : qcut4 vals = some bins) :
    bins.length = vals.length := by
  obtain ⟨_, _, rfl⟩ := qcut4_eq_some h
  simp

theorem getD_map_const {α β : Type} (l : List α) (i : Nat) (cst : β) :
    (l.map (fun _ => cst)).getD i cst = cst := by
  induction l generalizing i with
  | nil => simp
  | cons a l ih =>
    cases i with
    | zero => simp
    | succ i => simpa using ih i

theorem one_le_getD_map_succ (l : List Nat) (i : Nat) :
    1 ≤ (l.map (· + 1)).getD i 1 := by
  induction l generalizing i with
  | nil => simp
  | cons a l ih =>
    cases i with
    | zero => simp
    | succ i => simpa using ih i

/-- Claim C8 (amended): increasing one customer's monetary value (raising the
amount of one of their transactions, which leaves every other per-customer
metric fixed) never decreases that customer's `m_score`, provided monetary
quartile binning succeeds on the increased distribution. When it fails there
(the counterexample), the `except` fallback resets the score to 1 and the
claim as stated is false. -/
theorem C8_mscore_monotone (l₁ l₂ : List Txn) (dt : Int) (c : String) (m δ : Int)
    (hδ : 0 ≤ δ)
    (hsucc : qcut4 (monetaries (l₁ ++ Txn.mk dt c (m + δ) :: l₂)) ≠ none) :
    mScoreOf (l₁ ++ Txn.mk dt c m :: l₂) c ≤
      mScoreOf (l₁ ++ Txn.mk dt c (m + δ) :: l₂) c := by
  obtain ⟨mbins2, hmb2⟩ : ∃ b, qcut4 (monetaries (l₁ ++ Txn.mk dt c (m + δ) :: l₂)) = some b := by
    cases hq : qcut4 (monetaries (l₁ ++ Txn.mk dt c (m + δ) :: l₂)) with
    | none => exact absurd hq hsucc
    | some b => exact ⟨b, rfl⟩
  have hcin : c ∈ sortedCustomers (l₁ ++ Txn.mk dt c m :: l₂) := by
    rw [mem_sortedCustomers]
    simp
  have hidx : (sortedCustomers (l₁ ++ Txn.mk dt c m :: l₂)).indexOf c <
      (sortedCustomers (l₁ ++ Txn.mk dt c m :: l₂)).length :=
    List.indexOf_lt_length.2 hcin
  have hmlen : (monetaries (l₁ ++ Txn.mk dt c m :: l₂)).length =
      (sortedCustomers (l₁ ++ Txn.mk dt c m :: l₂)).length := by
    unfold monetaries
    rw [List.length_map]
  unfold mScoreOf fmScores
  rw [sortedCustomers_append_set l₁ l₂ dt c (m + δ) m,
    frequencies_append_set l₁ l₂ dt c (m + δ) m, hmb2]
  cases hf : qcut4 (rankFirst (frequencies (l₁ ++ Txn.mk dt c m :: l₂))) with
  | none =>
    cases hma : qcut4 (monetaries (l₁ ++ Txn.mk dt c m :: l₂)) with
    | none =>
      dsimp only
      exact le_refl _
    | some mbins =>
      dsimp only
      exact le_refl _
  | some fbins =>
    cases hma : qcut4 (monetaries (l₁ ++ Txn.mk dt c m :: l₂)) with
    | none =>
      dsimp only
      rw [getD_map_const]
      exact one_le_getD_map_succ _ _
    | some mbins =>
      dsimp only
      have hblen : (sortedCustomers (l₁ ++ Txn.mk dt c m :: l₂)).indexOf c < mbins.length := by
        rw [qcut4_length hma, hmlen]
        exact hidx
      have hblen2 : (sortedCustomers (l₁ ++ Txn.mk dt c m :: l₂)).indexOf c < mbins2.length := by
        rw [qcut4_length hmb2]
        unfold monetaries
        rw [sortedCustomers_append_set l₁ l₂ dt c (m + δ) m, List.length_map]
        exact hidx
      rw [getD_map _ _ 1 0 hblen, getD_map _ _ 1 0 hblen2]
      rw [monetaries_append_set l₁ l₂ dt c m δ] at hmb2
      have hmono := qcut4_set_mono (by rw [hmlen]; exact hidx) hδ hma hmb2
      omega

/-- Claim C8, counterexample to the unrestricted claim, exhibited on the full
pipeline output: on `monoRows` segmentation returns records and customer D
earns `m_score = 2`; raising only D from 4 to 9 makes the 0.75 monetary
quantile edge collide with the maximum, the monetary `qcut` raises inside the
`try`, the `except` fallback assigns 1 to everyone, and D's `m_score` in the
returned records drops from 2 to 1. -/
theorem C8_mscore_drop :
    (segmentTable monoRows).map (fun recs => recs.map (fun rec => (rec.customer, rec.mScore))) =
      Except.ok [((r"A"), 1), ((r"B"), 1), ((r"C"), 1), ((r"D"), 2), ((r"E"), 2),
        ((r"F"), 3), ((r"G"), 3), ((r"H"), 4), ((r"I"), 4)] ∧
      (segmentTable monoRowsUp).map
          (fun recs => recs.map (fun rec => (rec.customer, rec.mScore))) =
        Except.ok [((r"A"), 1), ((r"B"), 1), ((r"C"), 1), ((r"D"), 1), ((r"E"), 1),
          ((r"F"), 1), ((r"G"), 1), ((r"H"), 1), ((r"I"), 1)] ∧
      mScoreOf monoRows (r"D") = 2 ∧ mScoreOf monoRowsUp (r"D") = 1 := by
  refine ⟨?_, ?_, ?_, ?_⟩
  · decide
  · decide
  · decide
  · decide

/-- Witness for C8 at a concrete table: customer B (last order day 8) raised
from 20 to 25, the segmentation returning records before and after. -/
theorem C8_mscore_monotone_witness :
    (0 : Int) ≤ 5 ∧
      qcut4 (monetaries (wit8l1 ++ Txn.mk 8 (r"B") (20 + 5) :: wit8l2)) ≠ none ∧
      (segmentTable (wit8l1 ++ Txn.mk 8 (r"B") 20 :: wit8l2)).map
          (fun recs => recs.map (fun rec => (rec.customer, rec.mScore))) =
        Except.ok [((r"A"), 1), ((r"B"), 2), ((r"C"), 3), ((r"D"), 4)] ∧
      (segmentTable (wit8l1 ++ Txn.mk 8 (r"B") (20 + 5) :: wit8l2)).map
          (fun recs => recs.map (fun rec => (rec.customer, rec.mScore))) =
        Except.ok [((r"A"), 1), ((r"B"), 2), ((r"C"), 3), ((r"D"), 4)] ∧
      mScoreOf (wit8l1 ++ Txn.mk 8 (r"B") 20 :: wit8l2) (r"B") ≤
        mScoreOf (wit8l1 ++ Txn.mk 8 (r"B") (20 + 5) :: wit8l2) (r"B") :=
  ⟨by decide, by decide, by decide, by decide,
    C8_mscore_monotone wit8l1 wit8l2 8 (r"B") 20 5 (by decide) (by decide)⟩

section SegmentLemmas

theorem getD_range {n j : Nat} (h : j < n) : (List.range n).getD j 0 = j := by
  rw [List.getD_eq_getElem _ _ (by simpa using h)]
  exact List.getElem_range j (by simpa using h)

theorem getD_range_map {β : Type} {n j : Nat} (g : Nat → β) (d : β) (h : j < n) :
    ((List.range n).map g).getD j d = g j := by
  rw [getD_map g _ d 0 (by simpa using h), getD_range h]

theorem segmentTable_ok_inv {rows : List Txn} {recs : List RFMRec}
    (h : segmentTable rows = Except.ok recs) :
    ∃ rbins, qcut4 (recencies rows) = some rbins ∧
      recs = (List.range (sortedCustomers rows).length).map (fun i =>
        { customer := (sortedCustomers rows).getD i (r""),
          recency := (recencies rows).getD i 0,
          frequency := (frequencies rows).getD i 0,
          monetary := (monetaries rows).getD i 0,
          rScore := 4 - rbins.getD i 0,
          fScore := (fmScores rows).1.getD i 1,
          mScore := (fmScores rows).2.getD i 1,
          segment := segment_customer (4 - rbins.getD i 0) ((fmScores rows).1.getD i 1)
            ((fmScores rows).2.getD i 1) }) := by
  unfold segmentTable at h
  cases hq : qcut4 (recencies rows) with
  | none =>
    rw [hq] at h
    exact absurd h (by simp)
  | some rbins =>
    rw [hq] at h
    exact ⟨rbins, rfl, (Except.ok.inj h).symm⟩

theorem recencies_length (rows : List Txn) :
    (recencies rows).length = (sortedCustomers rows).length := by
  unfold recencies
  rw [List.length_map]

theorem recs_map_customer {rows : List Txn} {recs : List RFMRec}
    (h : segmentTable rows = Except.ok recs) :
    recs.map (·.customer) = sortedCustomers rows := by
  obtain ⟨rbins, hq, rfl⟩ := segmentTable_ok_inv h
  refine ext_getD (r"") ?_ (fun j hj => ?_)
  · simp
  · have hjn : j < (sortedCustomers rows).length := by simpa using hj
    rw [List.map_map, getD_range_map _ _ hjn]
    rfl

theorem recs_map_recency {rows : List Txn} {recs : List RFMRec}
    (h : segmentTable rows = Except.ok recs) :
    recs.map (·.recency) = recencies rows := by
  obtain ⟨rbins, hq, rfl⟩ := segmentTable_ok_inv h
  refine ext_getD 0 ?_ (fun j hj => ?_)
  · simp [recencies_length]
  · have hjn : j < (sortedCustomers rows).length := by simpa using hj
    rw [List.map_map, getD_range_map _ _ hjn]
    rfl

theorem segment_customer_cases (rS fS mS : Nat) :
    segment_customer rS fS mS = (r"Champions") ∨
      segment_customer rS fS mS = (r"New Users") ∨
      segment_customer rS fS mS = (r"At Risk") ∨
      segment_customer rS fS mS = (r"Regular") := by
  unfold segment_customer
  dsimp only
  split_ifs with h1 h2 h3
  · exact Or.inl rfl
  · exact Or.inr (Or.inl rfl)
  · exact Or.inr (Or.inr (Or.inl rfl))
  · exact Or.inr (Or.inr (Or.inr rfl))

end SegmentLemmas

/-- Claim C5 (amended): whenever the segmentation pipeline returns (recency
quartile binning succeeded), it returns exactly one RFM record per distinct
customer of the table, each record labelled by the first-matching-rule order
of `segment_customer`, and every label one of the four defined ones. On a
non-empty table where recency binning fails the pipeline raises instead (see
the counterexample). -/
theorem C5_segment_records (rows : List Txn) (recs : List RFMRec)
    (h : segmentTable rows = Except.ok recs) :
    (recs.map (·.customer)).Nodup ∧
      (∀ c : String, c ∈ recs.map (·.customer) ↔ c ∈ rows.map (·.customerId)) ∧
      ∀ rec ∈ recs,
        rec.segment = segment_customer rec.rScore rec.fScore rec.mScore ∧
        (rec.segment = (r"Champions") ∨ rec.segment = (r"New Users") ∨
          rec.segment = (r"At Risk") ∨ rec.segment = (r"Regular")) := by
  refine ⟨?_, ?_, ?_⟩
  · rw [recs_map_customer h]
    exact nodup_sortedCustomers rows
  · intro c
    rw [recs_map_customer h]
    exact mem_sortedCustomers
  · intro rec hrec
    obtain ⟨rbins, hq, rfl⟩ := segmentTable_ok_inv h
    obtain ⟨i, hi, rfl⟩ := List.mem_map.1 hrec
    exact ⟨rfl, segment_customer_cases _ _ _⟩

/-- Claim C5, counterexample to the unrestricted claim: on this non-empty
table the recency values tie, `pd.qcut` on recency raises, and segmentation
returns no records at all. -/
theorem C5_nonempty_segment_raises :
    equalRecencyRows ≠ [] ∧
      segmentTable equalRecencyRows =
        Except.error (r"ValueError: Bin edges must be unique") := by
  constructor
  · decide
  · decide

/-- Witness for C5 at a concrete table. -/
theorem C5_segment_records_witness :
    segmentTable fourCustomerRows = Except.ok fourCustomerRecs ∧
      ((fourCustomerRecs.map (·.customer)).Nodup ∧
        (∀ c : String, c ∈ fourCustomerRecs.map (·.customer) ↔
          c ∈ fourCustomerRows.map (·.customerId)) ∧
        ∀ rec ∈ fourCustomerRecs,
          rec.segment = segment_customer rec.rScore rec.fScore rec.mScore ∧
          (rec.segment = (r"Champions") ∨ rec.segment = (r"New Users") ∨
            rec.segment = (r"At Risk") ∨ rec.segment = (r"Regular"))) :=
  ⟨by decide, C5_segment_records fourCustomerRows fourCustomerRecs (by decide)⟩

/-- Claim C6 (amended): whenever the segmentation pipeline returns, a customer
with minimal recency (most recent last order) receives `r_score = 4` and a
customer with maximal recency receives `r_score = 1`. Having at least 4
distinct recency values does not guarantee the pipeline returns: skewed ties
still collide the quantile edges (see the counterexample). -/
theorem C6_recency_inversion (rows : List Txn) (recs : List RFMRec)
    (h : segmentTable rows = Except.ok recs) :
    ∀ rec1 ∈ recs,
      ((∀ rec2 ∈ recs, rec1.recency ≤ rec2.recency) → rec1.rScore = 4) ∧
      ((∀ rec2 ∈ recs, rec2.recency ≤ rec1.recency) → rec1.rScore = 1) := by
  have hmapr := recs_map_recency h
  obtain ⟨rbins, hq, rfl⟩ := segmentTable_ok_inv h
  intro rec1 hrec1
  obtain ⟨i, hir, rfl⟩ := List.mem_map.1 hrec1
  have hi : i < (sortedCustomers rows).length := List.mem_range.1 hir
  have hlen : i < (recencies rows).length := by
    rw [recencies_length]
    exact hi
  constructor
  · intro hminh
    have hmin : ∀ x ∈ recencies rows, (recencies rows).getD i 0 ≤ x := by
      intro x hx
      rw [← hmapr] at hx
      obtain ⟨rec2, hrec2, hx2⟩ := List.mem_map.1 hx
      rw [← hx2]
      exact hminh rec2 hrec2
    have hbin := qcut4_min_bin hq hlen hmin
    show 4 - rbins.getD i 0 = 4
    rw [hbin]
  · intro hmaxh
    have hmax : ∀ x ∈ recencies rows, x ≤ (recencies rows).getD i 0 := by
      intro x hx
      rw [← hmapr] at hx
      obtain ⟨rec2, hrec2, hx2⟩ := List.mem_map.1 hx
      rw [← hx2]
      exact hmaxh rec2 hrec2
    have hbin := qcut4_max_bin hq hlen hmax
    show 4 - rbins.getD i 0 = 1
    rw [hbin]

/-- Claim C6, counterexample to the unrestricted claim: this table has 4
distinct per-customer recency values, yet recency `qcut` raises (duplicate
quantile edges), so no customer receives any `r_score` at all. -/
theorem C6_four_distinct_recencies_raise :
    (dedupKeepFirst (recencies tenCustomerRows)).length = 4 ∧
      segmentTable tenCustomerRows =
        Except.error (r"ValueError: Bin edges must be unique") := by
  constructor
  · decide
  · decide

/-- Witness for C6 at a concrete table. -/
theorem C6_recency_inversion_witness :
    segmentTable spreadRows = Except.ok spreadRecs ∧
      ∀ rec1 ∈ spreadRecs,
        ((∀ rec2 ∈ spreadRecs, rec1.recency ≤ rec2.recency) → rec1.rScore = 4) ∧
        ((∀ rec2 ∈ spreadRecs, rec2.recency ≤ rec1.recency) → rec1.rScore = 1) :=
  ⟨by decide, C6_recency_inversion spreadRows spreadRecs (by decide)⟩

section WeekLemmas

theorem weekEnd_mod (d : Int) : weekEnd d % 7 = 3 := by
  unfold weekEnd
  omega

theorem weekEnd_mono {d e : Int} (h : d ≤ e) : weekEnd d ≤ weekEnd e := by
  unfold weekEnd
  omega

theorem mem_weekBuckets {a b w : Int} :
    w ∈ weekBuckets a b ↔
      ∃ k : Nat, k < ((b - a) / 7).toNat + 1 ∧ a + 7 * (k : Int) = w := by
  unfold weekBuckets
  simp only [List.mem_map, List.mem_range]

theorem pairwise_weekBuckets (a b : Int) :
    List.Pairwise (fun x y : Int => x < y) (weekBuckets a b) := by
  unfold weekBuckets
  rw [List.pairwise_map]
  refine (List.pairwise_lt_range _).imp ?_
  intro i j hij
  omega

theorem mem_weekBuckets_iff {a b w : Int} (ha : a % 7 = 3) (hb : b % 7 = 3) (hab : a ≤ b) :
    w ∈ weekBuckets a b ↔ a ≤ w ∧ w ≤ b ∧ w % 7 = 3 := by
  rw [mem_weekBuckets]
  constructor
  · rintro ⟨k, hk, rfl⟩
    omega
  · rintro ⟨h1, h2, h3⟩
    refine ⟨((w - a) / 7).toNat, ?_, ?_⟩ <;> omega

end WeekLemmas

/-- Claim C7 (amended): for a non-empty table the weekly revenue series is
strictly ascending in its week labels; each entry carries the summed sales of
the transactions in that calendar week; and the series covers every calendar
week from the week of the first transaction to the week of the last —
including weeks with no transaction, which appear as zero-valued entries
(contrary to the claim that only non-empty buckets appear; labels are the
Sundays ending each week). -/
theorem C7_weekly_trend (rows : List Txn) (hne : rows ≠ []) :
    List.Pairwise (fun p q : Int × Int => p.1 < q.1) (sales_over_time rows) ∧
      (∀ p ∈ sales_over_time rows,
        p.2 = ((rows.filter (fun rr => weekEnd rr.orderDate = p.1)).map (·.totalSales)).sum) ∧
      (∀ w : Int, weekEnd (minD (rows.map (·.orderDate))) ≤ w →
        w ≤ weekEnd (maxD (rows.map (·.orderDate))) → w % 7 = 3 →
        ∃ p ∈ sales_over_time rows, p.1 = w) ∧
      (∀ rr ∈ rows, ∃ p ∈ sales_over_time rows, p.1 = weekEnd rr.orderDate) := by
  have hmapne : rows.map (·.orderDate) ≠ [] := by
    intro hcon
    exact hne (List.map_eq_nil.1 hcon)
  have hminmax : minD (rows.map (·.orderDate)) ≤ maxD (rows.map (·.orderDate)) :=
    le_maxD (minD_mem hmapne)
  have hab : weekEnd (minD (rows.map (·.orderDate))) ≤
      weekEnd (maxD (rows.map (·.orderDate))) := weekEnd_mono hminmax
  have hsot : sales_over_time rows =
      (weekBuckets (weekEnd (minD (rows.map (·.orderDate))))
          (weekEnd (maxD (rows.map (·.orderDate))))).map
        (fun w => (w, ((rows.filter (fun rr => weekEnd rr.orderDate = w)).map
          (·.totalSales)).sum)) := by
    unfold sales_over_time
    rw [if_neg hne]
  refine ⟨?_, ?_, ?_, ?_⟩
  · rw [hsot]
    rw [List.pairwise_map]
    exact (pairwise_weekBuckets _ _).imp (fun hlt => hlt)
  · intro p hp
    rw [hsot] at hp
    obtain ⟨w, hw, rfl⟩ := List.mem_map.1 hp
    rfl
  · intro w h1 h2 h3
    rw [hsot]
    refine ⟨(w, ((rows.filter (fun rr => weekEnd rr.orderDate = w)).map
      (·.totalSales)).sum), List.mem_map_of_mem _ ?_, rfl⟩
    rw [mem_weekBuckets_iff (weekEnd_mod _) (weekEnd_mod _) hab]
    exact ⟨h1, h2, h3⟩
  · intro rr hrr
    rw [hsot]
    refine ⟨(weekEnd rr.orderDate,
      ((rows.filter (fun r2 => weekEnd r2.orderDate = weekEnd rr.orderDate)).map
        (·.totalSales)).sum), List.mem_map_of_mem _ ?_, rfl⟩
    rw [mem_weekBuckets_iff (weekEnd_mod _) (weekEnd_mod _) hab]
    exact ⟨weekEnd_mono (minD_le (List.mem_map_of_mem _ hrr)),
      weekEnd_mono (le_maxD (List.mem_map_of_mem _ hrr)), weekEnd_mod _⟩

/-- Claim C7, counterexample to the only-non-empty-buckets claim: the
in-between week (ending day 10) contains no transaction, yet the resampled
series contains the zero-valued entry `(10, 0)`. -/
theorem C7_zero_filled_empty_week :
    (10, 0) ∈ sales_over_time gapWeekRows ∧
      gapWeekRows.filter (fun rr => weekEnd rr.orderDate = 10) = [] := by
  constructor
  · decide
  · decide

/-- Witness for C7 at a concrete table. -/
theorem C7_weekly_trend_witness :
    adjacentWeekRows ≠ [] ∧
      (List.Pairwise (fun p q : Int × Int => p.1 < q.1) (sales_over_time adjacentWeekRows) ∧
        (∀ p ∈ sales_over_time adjacentWeekRows,
          p.2 = ((adjacentWeekRows.filter
            (fun rr => weekEnd rr.orderDate = p.1)).map (·.totalSales)).sum) ∧
        (∀ w : Int, weekEnd (minD (adjacentWeekRows.map (·.orderDate))) ≤ w →
          w ≤ weekEnd (maxD (adjacentWeekRows.map (·.orderDate))) → w % 7 = 3 →
          ∃ p ∈ sales_over_time adjacentWeekRows, p.1 = w) ∧
        (∀ rr ∈ adjacentWeekRows,
          ∃ p ∈ sales_over_time adjacentWeekRows, p.1 = weekEnd rr.orderDate)) :=
  ⟨by decide, C7_weekly_trend adjacentWeekRows (by decide)⟩

